import Mathlib

/-!
Garter: a shallow embedding of `garter.go`

`garter.go` turns a cobra command tree into an HTTP service: `cmdTree` takes a
snapshot of the command definitions, `serverSwaggerFile` describes every node of
the snapshot as a swagger path, and `generateCommand` maps a request URL back to
an argument list that `serveRun` hands to `runCommand`.

Conventions of the embedding

* Go strings are `String`; the `strings` functions are defined on the underlying
  character lists so that they evaluate by reduction.
* A Go `map[string]V` is an association list `List (String × V)` read with
  `mapGet` and written with `mapSet` (which overwrites an existing key), so a map
  built from the empty map never holds a key twice.  The order of the list
  stands for one of the iteration orders Go may choose.
* A cobra command is reduced to what `cmdTree` reads from it: `Use`, `Hidden`,
  the flags visited by `PersistentFlags().VisitAll`, the flags visited by
  `Flags().VisitAll`, and `Commands()`.
* A `*url.URL` is reduced to `Path` and to the `url.Values` that `Query()`
  returns.
* A function that can panic returns `Except String _`, the error being the panic.
* `exec.Cmd.Run` is a parameter of the model; the calls made to it are recorded.
* `yaml.Marshal` and the text written for the embedded page `swaggerui.html`
  are parameters of the model as well (`Env`).
-/

namespace Garter

/-! ## Library functions -/

/-- Go `strings.HasPrefix`. -/
def HasPrefix (s pre : String) : Bool := pre.data.isPrefixOf s.data

/-- Cutting a character list at every occurrence of `sep`; the pieces do not
contain `sep` and empty pieces are kept. -/
def splitChars (sep : Char) : List Char → List (List Char)
  | [] => [[]]
  | c :: cs =>
    if c = sep then [] :: splitChars sep cs
    else
      match splitChars sep cs with
      | [] => [[c]]
      | p :: ps => (c :: p) :: ps

/-- Go `strings.Split(s, sep)` for a separator of one character, the only kind
`garter.go` uses (`"/"` and `","`). -/
def Split (s : String) (sep : Char) : List String :=
  (splitChars sep s.data).map String.mk

/-- Go `strings.Join`. -/
def Join : List String → String → String
  | [], _ => ""
  | [x], _ => x
  | x :: y :: rest, sep => x ++ sep ++ Join (y :: rest) sep

/-- Reading a Go map: `v, ok := m[k]`. -/
def mapGet {α : Type} : List (String × α) → String → Option α
  | [], _ => none
  | (k', v) :: rest, k => if k' = k then some v else mapGet rest k

/-- Writing a Go map: `m[k] = v`. -/
def mapSet {α : Type} : List (String × α) → String → α → List (String × α)
  | [], k, v => [(k, v)]
  | (k', v') :: rest, k, v =>
    if k' = k then (k, v) :: rest else (k', v') :: mapSet rest k v

/-- The keys of a Go map. -/
def mapKeys {α : Type} (m : List (String × α)) : List String := m.map Prod.fst

/-- Go `url.Values`, a `map[string][]string`. -/
abbrev Values := List (String × List String)

/-- Go `url.Values.Get`: the first value stored under the key, `""` if there is
none. -/
def Values.Get (v : Values) (key : String) : String :=
  match mapGet v key with
  | some (x :: _) => x
  | _ => ""

/-- What `generateCommand` reads of a `*url.URL`: the path and the parsed query. -/
structure URL where
  Path : String
  Query : Values

/-! ## Data model -/

/-- What the code reads of a `*pflag.Flag`. -/
structure Flag where
  Name : String
  Usage : String
  DefValue : String
deriving DecidableEq, Repr

/-- What `cmdTree` reads of a `*cobra.Command`. -/
inductive Command where
  | mk (Use : String) (Hidden : Bool) (PersistentFlags : List Flag)
       (Flags : List Flag) (Commands : List Command)

/-- The `Use` field. -/
def Command.Use : Command → String
  | .mk u _ _ _ _ => u

/-- The `Hidden` field. -/
def Command.Hidden : Command → Bool
  | .mk _ h _ _ _ => h

/-- The flags visited by `c.PersistentFlags().VisitAll`. -/
def Command.PersistentFlags : Command → List Flag
  | .mk _ _ p _ _ => p

/-- The flags visited by `c.Flags().VisitAll`. -/
def Command.Flags : Command → List Flag
  | .mk _ _ _ f _ => f

/-- The result of `c.Commands()`. -/
def Command.Commands : Command → List Command
  | .mk _ _ _ _ cs => cs

/-- The type `CmdNode` of `garter.go`. -/
inductive CmdNode where
  | mk (name : String) (child : List (String × CmdNode)) (flags : List Flag)

/-- The `name` field. -/
def CmdNode.name : CmdNode → String
  | .mk n _ _ => n

/-- The `child` field. -/
def CmdNode.child : CmdNode → List (String × CmdNode)
  | .mk _ c _ => c

/-- The `flags` field. -/
def CmdNode.flags : CmdNode → List Flag
  | .mk _ _ f => f

/-- The type `param` of `garter.go`; a nil `Items` map is `none`. -/
structure param where
  In : String
  Typename : String
  Name : String
  Items : Option (List (String × String))
deriving DecidableEq, Repr

/-- The type `response` of `garter.go`. -/
structure response where
  Description : String
deriving DecidableEq, Repr

/-- The type `entry` of `garter.go`. -/
structure entry where
  Summary : String
  Parameters : List param
  Responses : List (String × response)
deriving DecidableEq, Repr

/-- The type `Server` of `garter.go`. -/
structure Server where
  cmdTree : CmdNode
  rootName : String
  execPath : String
  description : String
  version : String

/-! ## `cmdTree` -/

mutual
/-- The function `cmdTree` of `garter.go`: the node carries the flags handed down
by the caller followed by the command's own flags, and hands the command's
persistent flags to its children. -/
def cmdTree : Command → List Flag → CmdNode
  | .mk use _ pflags flags cmds, inherited =>
    .mk use (cmdTreeLoop cmds pflags []) (inherited ++ flags)
/-- The loop `for _, v := range c.Commands()` of `cmdTree`, with the child map
built so far. -/
def cmdTreeLoop : List Command → List Flag → List (String × CmdNode) →
    List (String × CmdNode)
  | [], _, child => child
  | v :: vs, inh, child =>
    if v.Hidden || HasPrefix v.Use "help" || HasPrefix v.Use "completion" then
      cmdTreeLoop vs inh child
    else
      cmdTreeLoop vs inh (mapSet child v.Use (cmdTree v inh))
end

/-! ## `toPathEntry` -/

/-- The method `CmdNode.toPathEntry` of `garter.go`. -/
def CmdNode.toPathEntry (n : CmdNode) : entry :=
  let m : entry := { Summary := "", Parameters := [], Responses := [("200", ⟨"OK"⟩)] }
  let m : entry := n.flags.foldl
    (fun m v => { m with Parameters := m.Parameters ++ [⟨"query", "string", v.Name, none⟩] }) m
  { m with Parameters :=
      m.Parameters ++ [⟨"query", "array", "argv", some [("type", "string")]⟩] }

/-! ## `serverSwaggerFile` -/

/-- The type of `paths` in `serverSwaggerFile`. -/
abbrev Paths := List (String × List (String × entry))

mutual
/-- The closure `addNode` of `serverSwaggerFile`, acting on the map `paths`. -/
def addNode : CmdNode → String → Paths → Paths
  | .mk name child flags, path, paths =>
    addNodeChildren child (path ++ "/" ++ name)
      (mapSet paths (path ++ "/" ++ name)
        [("get", (CmdNode.mk name child flags).toPathEntry)])
/-- The loop `for _, v := range n.child` of `addNode`. -/
def addNodeChildren : List (String × CmdNode) → String → Paths → Paths
  | [], _, paths => paths
  | (_, v) :: rest, nPath, paths => addNodeChildren rest nPath (addNode v nPath paths)
end

/-- The map `paths` that `serverSwaggerFile` builds before marshalling it. -/
def swaggerPaths (s : Server) : Paths := addNode s.cmdTree "" []

/-! ## `generateCommand` -/

/-- The three results of `generateCommand`; a nil slice and a nil error are
`none`. -/
structure CommandResult where
  command : String
  args : Option (List String)
  err : Option String
deriving DecidableEq, Repr

/-- The loop over the path segments in `generateCommand`, with the current node
and the arguments collected so far; `none` is the early return on a segment that
is not a key of `node.child`. -/
def walkSegments : List String → CmdNode → List String → Option (CmdNode × List String)
  | [], node, args => some (node, args)
  | v :: vs, node, args =>
    match mapGet node.child v with
    | none => none
    | some n => walkSegments vs n (args ++ [v])

/-- The loop over `node.flags` in `generateCommand`. -/
def appendFlagArgs (q : Values) (flags : List Flag) (args : List String) : List String :=
  flags.foldl
    (fun args v =>
      let val := q.Get v.Name
      if val ≠ "" then args ++ ["--" ++ v.Name ++ "=" ++ val] else args)
    args

/-- The method `Server.generateCommand` of `garter.go`.  The slice expression
`strings.Split(url.Path, "/")[2:]` panics when the split has fewer than two
elements. -/
def generateCommand (s : Server) (url : URL) : Except String CommandResult :=
  let segs := Split url.Path '/'
  if segs.length < 2 then
    .error "runtime error: slice bounds out of range"
  else
    match walkSegments (segs.drop 2) s.cmdTree [] with
    | none => .ok ⟨"", none, some "Exepected path in url."⟩
    | some (node, args) =>
      let q := url.Query
      let args := appendFlagArgs q node.flags args
      let val := q.Get "argv"
      let args := if val ≠ "" then args ++ Split val ',' else args
      .ok ⟨s.execPath, some args, none⟩

/-! ## `runCommand` and `serveRun` -/

/-- The outcome of `exec.Cmd.Run`: what the process wrote to the two buffers and
the error of `Run`, `none` for nil. -/
structure ProcessResult where
  stdout : String
  stderr : String
  err : Option String

/-- The function `runCommand` of `garter.go`, over the behaviour `Run` of the
spawned process. -/
def runCommand (Run : String → List String → ProcessResult) (command : String)
    (args : List String) : String × String × Option String :=
  let p := Run command args
  match p.err with
  | some e => ("", "", some e)
  | none => (p.stdout, p.stderr, none)

/-- The part of an `http.ResponseWriter` the handlers act on; `status` is `none`
until the header is written. -/
structure ResponseWriter where
  header : List (String × String)
  status : Option Nat
  body : String
deriving DecidableEq, Repr

/-- Go `ResponseWriter.WriteHeader`: only the first status counts. -/
def ResponseWriter.WriteHeader (w : ResponseWriter) (code : Nat) : ResponseWriter :=
  match w.status with
  | none => { w with status := some code }
  | some _ => w

/-- Go `ResponseWriter.Write` of a string, as `fmt.Fprint` does: the header is
written with status 200 if it was not yet written. -/
def ResponseWriter.Write (w : ResponseWriter) (s : String) : ResponseWriter :=
  let w := w.WriteHeader 200
  { w with body := w.body ++ s }

/-- Deleting a key of a Go map: `delete(m, k)`. -/
def mapDelete {α : Type} : List (String × α) → String → List (String × α)
  | [], _ => []
  | (k', v) :: rest, k =>
    if k' = k then mapDelete rest k else (k', v) :: mapDelete rest k

/-- Go `http.Error`, as of Go 1.23: a `Content-Length` header already set is
deleted, the content type and the no-sniff header are set, the status is written
and the message follows with a newline. -/
def httpError (w : ResponseWriter) (error : String) (code : Nat) : ResponseWriter :=
  let h := mapDelete w.header "Content-Length"
  let h := mapSet (mapSet h "Content-Type" "text/plain; charset=utf-8")
    "X-Content-Type-Options" "nosniff"
  ResponseWriter.Write (ResponseWriter.WriteHeader { w with header := h } code)
    (error ++ "\n")

/-- What a handler reads of an `*http.Request`. -/
structure Request where
  URL : URL
  RemoteAddr : String
  RequestURI : String

/-- The effects of the handlers: the response writer, the lines logged, and a
record of the URLs handed to `generateCommand` and of the processes spawned by
`runCommand`, in call order. -/
structure Effects where
  w : ResponseWriter
  log : List String
  mapped : List URL
  spawned : List (String × List String)

/-- The method `Server.serveRun` of `garter.go`. -/
def serveRun (Run : String → List String → ProcessResult) (s : Server) (e : Effects)
    (r : Request) : Except String Effects :=
  if !HasPrefix r.URL.Path ("/" ++ s.rootName) then
    .ok e
  else
    match generateCommand s r.URL with
    | .error p => .error p
    | .ok ⟨_, _, some err⟩ =>
      let e := { e with mapped := e.mapped ++ [r.URL] }
      let err1 := "Error: Failed to generate command: " ++ err
      .ok { e with log := e.log ++ [err1], w := httpError e.w err1 500 }
    | .ok ⟨command, args, none⟩ =>
      let e := { e with mapped := e.mapped ++ [r.URL] }
      let e := { e with spawned := e.spawned ++ [(command, args.getD [])] }
      match runCommand Run command (args.getD []) with
      | (_, _, some err) =>
        let err1 := "Error: Failed to run command: " ++ err
        .ok { e with log := e.log ++ [err1], w := httpError e.w err1 500 }
      | (stdout, stderr, none) =>
        let resp := stdout
        let resp := if stderr ≠ "" then resp ++ ("(" ++ stderr ++ ")") else resp
        .ok { e with w := e.w.Write resp }

/-! ## Configuration, `serverSwaggerUI`, `serverSwaggerFile`, `ServeHTTP` -/

/-- The variable `swaggerHeader` of `garter.go`. -/
def swaggerHeader : String :=
  "swagger: \"2.0\"\ninfo:\n  description: \"%s\"\n  version: \"%s\"\n  title: \"%s\"\n"

/-- Filling the verbs `%s` of a format with string arguments, in order; a verb
without an argument is printed as Go prints it. -/
def sprintfChars : List Char → List String → List Char
  | '%' :: 's' :: rest, a :: args => a.data ++ sprintfChars rest args
  | '%' :: 's' :: rest, [] => "%!s(MISSING)".data ++ sprintfChars rest []
  | c :: rest, args => c :: sprintfChars rest args
  | [], _ => []

/-- Go `fmt.Sprintf` for a format whose only verb is `%s`, applied to as many
strings as there are verbs: the case of `swaggerHeader`. -/
def Sprintf (format : String) (args : List String) : String :=
  String.mk (sprintfChars format.data args)

/-- The function `NewServer` of `garter.go`, after `os.Executable` has returned
`runner`; `long` and `version` are the fields `Long` and `Version` of the root
command. -/
def NewServer (rootCmd : Command) (runner long version : String) : Server :=
  { cmdTree := cmdTree rootCmd [],
    rootName := rootCmd.Use,
    execPath := runner,
    description := long,
    version := version }

/-- The method `Server.SetDescription` of `garter.go`. -/
def Server.SetDescription (s : Server) (v : String) : Server :=
  { s with description := v }

/-- The method `Server.getDescription` of `garter.go`. -/
def Server.getDescription (s : Server) : String :=
  if s.description = "" then "" else s.description

/-- The method `Server.SetVersion` of `garter.go`. -/
def Server.SetVersion (s : Server) (v : String) : Server :=
  { s with version := v }

/-- The method `Server.getVersion` of `garter.go`. -/
def Server.getVersion (s : Server) : String :=
  if s.version = "" then "1.0.0" else s.version

/-- What the handlers take from outside the source file: the behaviour of the
spawned process, the result of `yaml.Marshal` on the map holding `paths`, and the
text that `fmt.Fprintf(w, swaggerPage)` writes for the embedded page. -/
structure Env where
  Run : String → List String → ProcessResult
  Marshal : Paths → Except String String
  swaggerPageOut : String

/-- The method `Server.serverSwaggerUI` of `garter.go`. -/
def serverSwaggerUI (env : Env) (e : Effects) : Effects :=
  let w : ResponseWriter := { e.w with header := mapSet e.w.header "Content-Type" "text/html" }
  { e with w := w.Write env.swaggerPageOut }

/-- The method `Server.serverSwaggerFile` of `garter.go`. -/
def serverSwaggerFile (env : Env) (s : Server) (e : Effects) : Effects :=
  let paths := addNode s.cmdTree "" []
  match env.Marshal paths with
  | .error err =>
    let err1 := "Error: Failed to generate swagger file: " ++ err
    { e with log := e.log ++ [err1], w := httpError e.w err1 500 }
  | .ok d =>
    let header := Sprintf swaggerHeader [s.getDescription, s.getVersion, s.rootName]
    { e with w := e.w.Write (header ++ d) }

/-- The method `Server.ServeHTTP` of `garter.go`. -/
def ServeHTTP (env : Env) (s : Server) (e : Effects) (r : Request) : Except String Effects :=
  let e := { e with log := e.log ++ ["Request from " ++ r.RemoteAddr ++ ": " ++ r.RequestURI] }
  if r.URL.Path = "/swaggerui" then
    .ok (serverSwaggerUI env e)
  else if r.URL.Path = "/swagger" then
    .ok (serverSwaggerFile env s e)
  else
    serveRun env.Run s e r

/-! ## The methods of `*Server` in state-passing form

The methods above take the server as a value.  Here the same methods are written
with the server their receiver points to as a state: a field is read from the
state obtained with `get`, and an assignment to a field is a `modify`.  The
result of a run is the value returned together with the server after the call. -/

/-- A computation of a method with receiver `s *Server`; an error is a panic. -/
abbrev ServerM := StateT Server (Except String)

/-- The method `Server.SetDescription` of `garter.go`, on the state. -/
def SetDescriptionM (v : String) : ServerM Unit :=
  modify fun s => { s with description := v }

/-- The method `Server.getDescription` of `garter.go`, on the state. -/
def getDescriptionM : ServerM String := do
  let s ← get
  if s.description = "" then return "" else return s.description

/-- The method `Server.SetVersion` of `garter.go`, on the state. -/
def SetVersionM (v : String) : ServerM Unit :=
  modify fun s => { s with version := v }

/-- The method `Server.getVersion` of `garter.go`, on the state. -/
def getVersionM : ServerM String := do
  let s ← get
  if s.version = "" then return "1.0.0" else return s.version

/-- The method `Server.serverSwaggerUI` of `garter.go`, on the state: it reads no
field of the server. -/
def serverSwaggerUIM (env : Env) (e : Effects) : ServerM Effects := do
  let w : ResponseWriter := { e.w with header := mapSet e.w.header "Content-Type" "text/html" }
  return { e with w := w.Write env.swaggerPageOut }

/-- The method `Server.serverSwaggerFile` of `garter.go`, on the state. -/
def serverSwaggerFileM (env : Env) (e : Effects) : ServerM Effects := do
  let s ← get
  let paths := addNode s.cmdTree "" []
  match env.Marshal paths with
  | .error err =>
    let err1 := "Error: Failed to generate swagger file: " ++ err
    return { e with log := e.log ++ [err1], w := httpError e.w err1 500 }
  | .ok d =>
    let description ← getDescriptionM
    let version ← getVersionM
    let s ← get
    let header := Sprintf swaggerHeader [description, version, s.rootName]
    return { e with w := e.w.Write (header ++ d) }

/-- The method `Server.generateCommand` of `garter.go`, on the state. -/
def generateCommandM (url : URL) : ServerM CommandResult := do
  let s ← get
  let node := s.cmdTree
  let segs := Split url.Path '/'
  if segs.length < 2 then
    throw "runtime error: slice bounds out of range"
  else
    match walkSegments (segs.drop 2) node [] with
    | none => return ⟨"", none, some "Exepected path in url."⟩
    | some (node, args) =>
      let q := url.Query
      let args := appendFlagArgs q node.flags args
      let val := q.Get "argv"
      let args := if val ≠ "" then args ++ Split val ',' else args
      let s ← get
      return ⟨s.execPath, some args, none⟩

/-- The method `Server.serveRun` of `garter.go`, on the state. -/
def serveRunM (Run : String → List String → ProcessResult) (e : Effects) (r : Request) :
    ServerM Effects := do
  let s ← get
  if !HasPrefix r.URL.Path ("/" ++ s.rootName) then
    return e
  else
    let res ← generateCommandM r.URL
    match res with
    | ⟨_, _, some err⟩ =>
      let e := { e with mapped := e.mapped ++ [r.URL] }
      let err1 := "Error: Failed to generate command: " ++ err
      return { e with log := e.log ++ [err1], w := httpError e.w err1 500 }
    | ⟨command, args, none⟩ =>
      let e := { e with mapped := e.mapped ++ [r.URL] }
      let e := { e with spawned := e.spawned ++ [(command, args.getD [])] }
      match runCommand Run command (args.getD []) with
      | (_, _, some err) =>
        let err1 := "Error: Failed to run command: " ++ err
        return { e with log := e.log ++ [err1], w := httpError e.w err1 500 }
      | (stdout, stderr, none) =>
        let resp := stdout
        let resp := if stderr ≠ "" then resp ++ ("(" ++ stderr ++ ")") else resp
        return { e with w := e.w.Write resp }

/-- The method `Server.ServeHTTP` of `garter.go`, on the state. -/
def ServeHTTPM (env : Env) (e : Effects) (r : Request) : ServerM Effects := do
  let e := { e with log := e.log ++ ["Request from " ++ r.RemoteAddr ++ ": " ++ r.RequestURI] }
  if r.URL.Path = "/swaggerui" then
    serverSwaggerUIM env e
  else if r.URL.Path = "/swagger" then
    serverSwaggerFileM env e
  else
    serveRunM env.Run e r

/-! ## Specification-side notions -/

/-- Following a chain of child keys from a node: each segment is looked up among
the children of the node reached so far. -/
def resolve : CmdNode → List String → Option CmdNode
  | n, [] => some n
  | n, v :: vs =>
    match mapGet n.child v with
    | none => none
    | some c => resolve c vs

/-- One argument `--<name>=<value>` for every flag whose query value is not
empty, in the order of the flag list. -/
def flagArgs (q : Values) (flags : List Flag) : List String :=
  (flags.filter (fun f => q.Get f.Name ≠ "")).map
    (fun f => "--" ++ f.Name ++ "=" ++ q.Get f.Name)

/-- The pieces of the `argv` value, none when the value is empty. -/
def argvArgs (q : Values) : List String :=
  if q.Get "argv" = "" then [] else Split (q.Get "argv") ','

/-- The snapshot with root `example` and one child `add` whose flag list is
`five`, `val`. -/
def addTree : CmdNode :=
  .mk "example"
    [("add", .mk "add" [] [⟨"five", "Add 5 to val", "false"⟩, ⟨"val", "", "0"⟩])] []

/-- Some segment of the walk is not a key of the children of the node reached by
the segments before it. -/
def Unresolved (root : CmdNode) (segs : List String) : Prop :=
  ∃ (pre : List String) (v : String) (rest : List String) (node : CmdNode),
    segs = pre ++ v :: rest ∧ resolve root pre = some node ∧ mapGet node.child v = none

/-- A definition tree three levels deep: `example` declares the persistent flag
`val`, its child `math` declares nothing, and `math` has the child `add` with the
own flag `five`. -/
def deepCommand : Command :=
  .mk "example" false [⟨"val", "Value used by other commands", "0"⟩] []
    [.mk "math" false [] []
      [.mk "add" false [] [⟨"five", "Add 5 to val", "false"⟩] []]]

/-- An empty response writer and empty records. -/
def Effects.init : Effects := ⟨⟨[], none, ""⟩, [], [], []⟩

/-- The line written and logged by `serveRun` when `generateCommand` fails. -/
def generateFailure : String :=
  "Error: Failed to generate command: " ++ "Exepected path in url."

/-- A definition node that the snapshot leaves out: hidden, or named with the
prefix `help` or `completion`. -/
def excluded (c : Command) : Bool :=
  c.Hidden || HasPrefix c.Use "help" || HasPrefix c.Use "completion"

/-- No string occurs twice in the list. -/
def noRepeat : List String → Bool
  | [] => true
  | x :: xs => !xs.contains x && noRepeat xs

mutual
/-- Sibling-unique names: below every node of the definition tree, no two
children have the same name. -/
def siblingUnique : Command → Bool
  | .mk _ _ _ _ cmds => noRepeat (cmds.map Command.Use) && siblingUniqueAll cmds
/-- Every command of the list has sibling-unique names. -/
def siblingUniqueAll : List Command → Bool
  | [] => true
  | c :: cs => siblingUnique c && siblingUniqueAll cs
end

/-- Following a chain of names in the definition tree, through nodes that are
not excluded: the definition node reached and the persistent flags of its parent
(the flags handed to the root for the empty chain). -/
def defResolve : Command → List Flag → List String → Option (Command × List Flag)
  | c, inherited, [] => some (c, inherited)
  | c, _, k :: ks =>
    match c.Commands.find? (fun v => v.Use = k) with
    | none => none
    | some v => if excluded v then none else defResolve v c.PersistentFlags ks

/-- A definition tree with a hidden child, a `help` child and a `completion`
child next to the child `add`; the hidden child has a child of its own. -/
def filteredCommand : Command :=
  .mk "help" true [] []
    [.mk "server" true [] [] [.mk "start" false [] [] []],
     .mk "add" false [] [⟨"five", "Add 5 to val", "false"⟩] [.mk "helper" false [] [] []],
     .mk "help [command]" false [] [] [],
     .mk "completion" false [] [] [.mk "bash" false [] [] []]]

/-- The names of the nodes stored in a child map. -/
def childNames (child : List (String × CmdNode)) : List String :=
  child.map (fun p => p.2.name)

mutual
/-- The chains of names from the node down to each node of its subtree, the
node's own name first; one chain per node. -/
def nameChains : CmdNode → List (List String)
  | .mk name child _ => [name] :: (nameChainsChildren child).map (fun ch => name :: ch)
/-- The chains of the subtrees of a child map. -/
def nameChainsChildren : List (String × CmdNode) → List (List String)
  | [] => []
  | (_, v) :: rest => nameChains v ++ nameChainsChildren rest
end

mutual
/-- The number of nodes of a tree. -/
def nodeCount : CmdNode → Nat
  | .mk _ child _ => 1 + nodeCountChildren child
/-- The number of nodes below a child map. -/
def nodeCountChildren : List (String × CmdNode) → Nat
  | [] => 0
  | (_, v) :: rest => nodeCount v + nodeCountChildren rest
end

/-- The key `addNode` computes for the node at the end of a chain of names, when
it starts from `path`: every name is appended after a `/`. -/
def chainKey (path : String) (chain : List String) : String :=
  chain.foldl (fun p n => p ++ "/" ++ n) path

/-- The chain of names joined with `/`, after a leading `/`. -/
def pathKey (chain : List String) : String := "/" ++ Join chain "/"

mutual
/-- No name of the tree contains the character `/`. -/
def slashFree : CmdNode → Bool
  | .mk name child _ => !name.data.contains '/' && slashFreeChildren child
/-- No name below the child map contains `/`. -/
def slashFreeChildren : List (String × CmdNode) → Bool
  | [] => true
  | (_, v) :: rest => slashFree v && slashFreeChildren rest
end

mutual
/-- The children of every node of the tree have pairwise different names. -/
def distinctNames : CmdNode → Bool
  | .mk _ child _ => noRepeat (childNames child) && distinctNamesChildren child
/-- Every node of the child map has children with pairwise different names. -/
def distinctNamesChildren : List (String × CmdNode) → Bool
  | [] => true
  | (_, v) :: rest => distinctNames v && distinctNamesChildren rest
end

/-- A definition tree with sibling-unique names, no hidden and no reserved name,
in which the child `files/list` of the root is named like the chain
`files`, `list`. -/
def slashCommand : Command :=
  .mk "example" false [] []
    [.mk "files" false [] [] [.mk "list" false [] [] []],
     .mk "files/list" false [] [] []]

/-- The server of the example: the tree `addTree` under the root name `example`,
re-invoking `/bin/example`. -/
def addServer : Server := ⟨addTree, "example", "/bin/example", "", ""⟩

/-- A request for the given path and query. -/
def requestOf (path : String) (q : Values) : Request :=
  ⟨⟨path, q⟩, "127.0.0.1:4000", path⟩

/-- A process that prints `ok` and exits with status 0. -/
def runOk : String → List String → ProcessResult := fun _ _ => ⟨"ok", "", none⟩

/-- The names of a flag list. -/
def flagNames (flags : List Flag) : List String := flags.map Flag.Name

/-- A definition tree in which the child `add` declares an own flag `val`, the
name of a persistent flag of its parent. -/
def shadowCommand : Command :=
  .mk "example" false [⟨"val", "Value used by other commands", "0"⟩] []
    [.mk "add" false [] [⟨"five", "Add 5 to val", "false"⟩, ⟨"val", "Start value", "1"⟩] []]

/-- The argument list mapped from a URL whose path resolves to `node`: the path
segments after the root segment, the flag arguments, the `argv` pieces. -/
def mappedArgs (url : URL) (node : CmdNode) : List String :=
  (Split url.Path '/').drop 2 ++ flagArgs url.Query node.flags ++ argvArgs url.Query

/-- Some suffix of the first list begins with the second list. -/
def containsChars : List Char → List Char → Bool
  | [], sub => sub.isEmpty
  | c :: cs, sub => sub.isPrefixOf (c :: cs) || containsChars cs sub

/-- Go `strings.Contains`. -/
def Contains (s sub : String) : Bool := containsChars s.data sub.data

/-- A process that writes `partial` to stdout and `boom` to stderr and exits with
status 1. -/
def runFail : String → List String → ProcessResult :=
  fun _ _ => ⟨"partial", "boom", some "exit status 1"⟩

/-- A process that prints `15`, writes `deprecated` to stderr and exits with
status 0. -/
def runWarn : String → List String → ProcessResult :=
  fun _ _ => ⟨"15", "deprecated", none⟩

/-- The line `ServeHTTP` logs for a request. -/
def requestLine (r : Request) : String :=
  "Request from " ++ r.RemoteAddr ++ ": " ++ r.RequestURI

/-- The calls a holder of the server can make: serving a request and the two
setters. -/
inductive Call where
  | serve (r : Request)
  | setDescription (v : String)
  | setVersion (v : String)

/-- A call, as a computation on the server state: serving a request runs the
handler `ServeHTTPM`, the setters run `SetDescriptionM` and `SetVersionM` and
leave the effects as they are. -/
def Call.run (env : Env) (e : Effects) : Call → ServerM Effects
  | .serve r => ServeHTTPM env e r
  | .setDescription v => do
    SetDescriptionM v
    return e
  | .setVersion v => do
    SetVersionM v
    return e

/-- An environment for the examples: the process of `runOk`, a marshaller that
prints `paths: ...`, and a one-line page. -/
def envOk : Env := ⟨runOk, fun _ => .ok "paths: ...\n", "<html></html>"⟩

mutual
/-- The nodes of a tree, each with the chain of names leading to it from the
root of the tree, the root's name first. -/
def chainNodes : CmdNode → List (List String × CmdNode)
  | .mk name child flags =>
    ([name], .mk name child flags)
      :: (chainNodesChildren child).map (fun p => (name :: p.1, p.2))
/-- The nodes below a child map, with their chains. -/
def chainNodesChildren : List (String × CmdNode) → List (List String × CmdNode)
  | [] => []
  | (_, v) :: rest => chainNodes v ++ chainNodesChildren rest
end

mutual
/-- Every child of every node of the tree is stored under its own name. -/
def keysAreNames : CmdNode → Bool
  | .mk _ child _ => keysAreNamesChildren child
/-- Every entry of the child map, and every entry below it, is stored under the
name of its node. -/
def keysAreNamesChildren : List (String × CmdNode) → Bool
  | [] => true
  | (k, v) :: rest => decide (v.name = k) && keysAreNames v && keysAreNamesChildren rest
end

/-- A definition tree whose root is named `tool/add` and has the child `add`. -/
def slashRootCommand : Command :=
  .mk "tool/add" false [] [] [.mk "add" false [] [⟨"five", "Add 5 to val", "false"⟩] []]

/-- The last command of the list that is named `k` and not excluded: the one
whose snapshot the child map holds under `k` when the loop of `cmdTree` ends. -/
def lastKept (k : String) : List Command → Option Command
  | [] => none
  | v :: vs =>
    match lastKept k vs with
    | some w => some w
    | none => if excluded v = false ∧ v.Use = k then some v else none

/-- The definition node that a chain of names leads to from the command `c`,
with the persistent flags of its parent in the definition tree (the flags handed
to `c` for the empty chain): at every step the chain goes to the last
non-excluded child of that name. -/
def definitionNode : Command → List Flag → List String → Option (Command × List Flag)
  | c, inherited, [] => some (c, inherited)
  | c, _, k :: ks =>
    match lastKept k c.Commands with
    | none => none
    | some v => definitionNode v c.PersistentFlags ks

/-! ## Lemmas on the loops of `generateCommand` -/

theorem walkSegments_eq (segs : List String) (node : CmdNode) (args : List String) :
    walkSegments segs node args = (resolve node segs).map (fun n => (n, args ++ segs)) := by
  induction segs generalizing node args with
  | nil => simp [walkSegments, resolve]
  | cons v vs ih =>
    simp only [walkSegments, resolve]
    cases h : mapGet node.child v with
    | none => simp
    | some c => simp [ih]

theorem appendFlagArgs_eq (q : Values) (flags : List Flag) (args : List String) :
    appendFlagArgs q flags args = args ++ flagArgs q flags := by
  induction flags generalizing args with
  | nil => simp [appendFlagArgs, flagArgs]
  | cons f fs ih =>
    have step : appendFlagArgs q (f :: fs) args = appendFlagArgs q fs
        (if q.Get f.Name ≠ "" then args ++ ["--" ++ f.Name ++ "=" ++ q.Get f.Name]
          else args) := rfl
    rw [step, ih]
    by_cases h : q.Get f.Name = ""
    · simp [h, flagArgs]
    · simp [h, flagArgs]

theorem generateCommand_of_resolve (s : Server) (url : URL) (node : CmdNode)
    (hlen : 2 ≤ (Split url.Path '/').length)
    (hres : resolve s.cmdTree ((Split url.Path '/').drop 2) = some node) :
    generateCommand s url = .ok ⟨s.execPath,
      some ((Split url.Path '/').drop 2 ++ flagArgs url.Query node.flags ++ argvArgs url.Query),
      none⟩ := by
  unfold generateCommand
  have h1 : ¬ (Split url.Path '/').length < 2 := by omega
  simp only [h1, if_false, walkSegments_eq, hres, Option.map_some', List.nil_append,
    appendFlagArgs_eq, argvArgs]
  by_cases h : url.Query.Get "argv" = ""
  · simp [h]
  · simp [h]

theorem resolve_append (n : CmdNode) (pre rest : List String) :
    resolve n (pre ++ rest) = (resolve n pre).bind (fun m => resolve m rest) := by
  induction pre generalizing n with
  | nil => simp [resolve]
  | cons v vs ih =>
    simp only [List.cons_append, resolve]
    cases h : mapGet n.child v with
    | none => simp
    | some c => simp [ih]

theorem resolve_eq_none_iff (n : CmdNode) (segs : List String) :
    resolve n segs = none ↔ Unresolved n segs := by
  constructor
  · intro h
    induction segs generalizing n with
    | nil => simp [resolve] at h
    | cons v vs ih =>
      simp only [resolve] at h
      cases hc : mapGet n.child v with
      | none => exact ⟨[], v, vs, n, rfl, rfl, hc⟩
      | some c =>
        rw [hc] at h
        obtain ⟨pre, w, rest, node, h1, h2, h3⟩ := ih c h
        refine ⟨v :: pre, w, rest, node, by simp [h1], ?_, h3⟩
        simp [resolve, hc, h2]
  · rintro ⟨pre, v, rest, node, h1, h2, h3⟩
    subst h1
    rw [resolve_append, h2]
    simp [resolve, h3]

theorem splitChars_ne_nil (sep : Char) (cs : List Char) : splitChars sep cs ≠ [] := by
  cases cs with
  | nil => simp [splitChars]
  | cons c cs =>
    simp only [splitChars]
    split
    · simp
    · split <;> simp

theorem Split_length_of_HasPrefix (path root : String)
    (h : HasPrefix path ("/" ++ root) = true) : 2 ≤ (Split path '/').length := by
  unfold HasPrefix at h
  have hd : ("/" ++ root).data = '/' :: root.data := by
    simp [String.data_append]
  rw [hd] at h
  unfold Split
  cases hp : path.data with
  | nil => rw [hp] at h; simp [List.isPrefixOf] at h
  | cons c cs =>
    rw [hp] at h
    simp only [List.isPrefixOf, Bool.and_eq_true, beq_iff_eq] at h
    obtain ⟨rfl, _⟩ := h
    have := splitChars_ne_nil '/' cs
    simp only [splitChars, if_true, List.map_cons, List.length_cons, List.length_map]
    cases hs : splitChars '/' cs with
    | nil => exact absurd hs this
    | cons p ps => simp

theorem generateCommand_of_unresolved (s : Server) (url : URL)
    (hlen : 2 ≤ (Split url.Path '/').length)
    (hres : resolve s.cmdTree ((Split url.Path '/').drop 2) = none) :
    generateCommand s url = .ok ⟨"", none, some "Exepected path in url."⟩ := by
  unfold generateCommand
  have h1 : ¬ (Split url.Path '/').length < 2 := by omega
  simp only [h1, if_false, walkSegments_eq, hres, Option.map_none']

theorem serveRun_of_unresolved (Run : String → List String → ProcessResult) (s : Server)
    (e : Effects) (r : Request)
    (hpre : HasPrefix r.URL.Path ("/" ++ s.rootName) = true)
    (hres : resolve s.cmdTree ((Split r.URL.Path '/').drop 2) = none) :
    serveRun Run s e r = .ok
      { w := httpError e.w generateFailure 500,
        log := e.log ++ [generateFailure],
        mapped := e.mapped ++ [r.URL],
        spawned := e.spawned } := by
  have hlen := Split_length_of_HasPrefix _ _ hpre
  have hg := generateCommand_of_unresolved s r.URL hlen hres
  unfold serveRun
  simp only [hpre, Bool.not_true, Bool.false_eq_true, if_false, hg]
  rfl

theorem cmdTree_flags (c : Command) (inherited : List Flag) :
    (cmdTree c inherited).flags = inherited ++ c.Flags := by
  cases c with
  | mk use hidden pflags flags cmds => simp [cmdTree, CmdNode.flags, Command.Flags]

theorem flagArgs_congr (q q' : Values) (flags : List Flag)
    (h : ∀ f ∈ flags, q'.Get f.Name = q.Get f.Name) : flagArgs q' flags = flagArgs q flags := by
  induction flags with
  | nil => rfl
  | cons f fs ih =>
    have hf := h f (by simp)
    have hfs := ih (fun g hg => h g (by simp [hg]))
    unfold flagArgs at hfs ⊢
    simp only [List.filter_cons, hf]
    split
    · simp only [List.map_cons, hf, hfs]
    · exact hfs

theorem splitChars_length (sep : Char) (cs : List Char) :
    (splitChars sep cs).length = cs.count sep + 1 := by
  induction cs with
  | nil => simp [splitChars]
  | cons c cs ih =>
    by_cases hc : c = sep
    · subst hc
      simp [splitChars, ih]
    · have hne := splitChars_ne_nil sep cs
      simp only [splitChars, hc, if_false]
      cases hs : splitChars sep cs with
      | nil => exact absurd hs hne
      | cons p ps =>
        rw [hs] at ih
        simp only [List.length_cons] at ih ⊢
        rw [List.count_cons_of_ne (fun e => hc e.symm)]
        exact ih

theorem Join_cons_cons (x y : String) (rest : List String) (sep : String) :
    Join (x :: y :: rest) sep = x ++ sep ++ Join (y :: rest) sep := rfl

theorem Join_splitChars (sep : Char) (cs : List Char) :
    Join ((splitChars sep cs).map String.mk) (String.mk [sep]) = String.mk cs := by
  induction cs with
  | nil => simp [splitChars, Join]
  | cons c cs ih =>
    have hne := splitChars_ne_nil sep cs
    by_cases hc : c = sep
    · subst hc
      simp only [splitChars, if_true, List.map_cons]
      cases hs : splitChars c cs with
      | nil => exact absurd hs hne
      | cons p ps =>
        rw [hs] at ih
        simp only [List.map_cons] at ih ⊢
        rw [Join_cons_cons, ih]
        apply String.ext
        simp
    · simp only [splitChars, hc, if_false]
      cases hs : splitChars sep cs with
      | nil => exact absurd hs hne
      | cons p ps =>
        rw [hs] at ih
        cases ps with
        | nil =>
          simp only [List.map_cons, List.map_nil, Join] at ih ⊢
          have hp : p = cs := by simpa using congrArg String.data ih
          rw [hp]
        | cons p2 ps =>
          simp only [List.map_cons] at ih ⊢
          rw [Join_cons_cons] at ih ⊢
          apply String.ext
          have := congrArg String.data ih
          simp only [String.data_append] at this ⊢
          simp [this]

theorem Split_length (v : String) (sep : Char) :
    (Split v sep).length = v.data.count sep + 1 := by
  simp [Split, splitChars_length]

theorem Join_Split (v : String) (sep : Char) : Join (Split v sep) (String.mk [sep]) = v := by
  unfold Split
  rw [Join_splitChars]

theorem serveRun_returns (Run : String → List String → ProcessResult) (s : Server)
    (e : Effects) (r : Request) :
    ∃ e' : Effects, serveRun Run s e r = .ok e' ∧
      (e'.mapped = e.mapped ∨
        (e'.mapped = e.mapped ++ [r.URL] ∧
          HasPrefix r.URL.Path ("/" ++ s.rootName) = true)) := by
  by_cases hpre : HasPrefix r.URL.Path ("/" ++ s.rootName) = true
  · have hlen := Split_length_of_HasPrefix _ _ hpre
    cases hres : resolve s.cmdTree ((Split r.URL.Path '/').drop 2) with
    | none => exact ⟨_, serveRun_of_unresolved Run s e r hpre hres, Or.inr ⟨rfl, hpre⟩⟩
    | some node =>
      have hg := generateCommand_of_resolve s r.URL node hlen hres
      unfold serveRun
      simp only [hpre, Bool.not_true, Bool.false_eq_true, if_false, hg]
      rcases hrun : runCommand Run s.execPath
          ((some ((Split r.URL.Path '/').drop 2 ++ flagArgs r.URL.Query node.flags
            ++ argvArgs r.URL.Query)).getD []) with ⟨out, err, _ | msg⟩
      · exact ⟨_, rfl, Or.inr ⟨rfl, trivial⟩⟩
      · exact ⟨_, rfl, Or.inr ⟨rfl, trivial⟩⟩
  · refine ⟨e, ?_, Or.inl rfl⟩
    unfold serveRun
    simp [hpre]

/-! ## Lemmas on maps and on `cmdTree` -/

theorem mapGet_mapSet_self {α : Type} (m : List (String × α)) (k : String) (v : α) :
    mapGet (mapSet m k v) k = some v := by
  induction m with
  | nil => simp [mapSet, mapGet]
  | cons p rest ih =>
    obtain ⟨k', v'⟩ := p
    by_cases h : k' = k
    · simp [mapSet, mapGet, h]
    · simp [mapSet, mapGet, h, ih]

theorem mapGet_mapSet_ne {α : Type} (m : List (String × α)) (k k' : String) (v : α)
    (h : k ≠ k') : mapGet (mapSet m k v) k' = mapGet m k' := by
  induction m with
  | nil => simp [mapSet, mapGet, h]
  | cons p rest ih =>
    obtain ⟨k0, v0⟩ := p
    by_cases h0 : k0 = k
    · subst h0; simp [mapSet, mapGet, h]
    · by_cases h1 : k0 = k'
      · subst h1; simp [mapSet, mapGet, h0]
      · simp [mapSet, mapGet, h0, h1, ih]

theorem mapKeys_mapSet_new {α : Type} (m : List (String × α)) (k : String) (v : α)
    (h : k ∉ mapKeys m) : mapKeys (mapSet m k v) = mapKeys m ++ [k] := by
  induction m with
  | nil => simp [mapSet, mapKeys]
  | cons p rest ih =>
    obtain ⟨k0, v0⟩ := p
    simp only [mapKeys, List.map_cons, List.mem_cons, not_or] at h
    have h0 : ¬ k0 = k := fun e => h.1 e.symm
    have := ih (by simpa [mapKeys] using h.2)
    simp only [mapKeys] at this
    simp [mapSet, mapKeys, h0, this]

theorem noRepeat_cons (x : String) (xs : List String) :
    noRepeat (x :: xs) = true ↔ x ∉ xs ∧ noRepeat xs = true := by
  simp [noRepeat]

theorem siblingUniqueAll_mem (cmds : List Command) (h : siblingUniqueAll cmds = true)
    (v : Command) (hv : v ∈ cmds) : siblingUnique v = true := by
  induction cmds with
  | nil => cases hv
  | cons c cs ih =>
    simp only [siblingUniqueAll, Bool.and_eq_true] at h
    rcases List.mem_cons.1 hv with rfl | hm
    · exact h.1
    · exact ih h.2 hm

theorem find_eq_none_of_not_mem (k : String) (cmds : List Command)
    (h : k ∉ cmds.map Command.Use) : cmds.find? (fun v => v.Use = k) = none := by
  induction cmds with
  | nil => rfl
  | cons c cs ih =>
    simp only [List.map_cons, List.mem_cons, not_or] at h
    have hc : ¬ c.Use = k := fun e => h.1 e.symm
    simp [List.find?, hc, ih h.2]

theorem cmdTreeLoop_cons_excluded (c : Command) (cs : List Command) (inh : List Flag)
    (child : List (String × CmdNode)) (hx : excluded c = true) :
    cmdTreeLoop (c :: cs) inh child = cmdTreeLoop cs inh child := by
  unfold excluded at hx
  simp [cmdTreeLoop, hx]

theorem cmdTreeLoop_cons_kept (c : Command) (cs : List Command) (inh : List Flag)
    (child : List (String × CmdNode)) (hx : ¬ excluded c = true) :
    cmdTreeLoop (c :: cs) inh child
      = cmdTreeLoop cs inh (mapSet child c.Use (cmdTree c inh)) := by
  unfold excluded at hx
  simp only [cmdTreeLoop, hx, if_false]
  rfl

theorem mapGet_cmdTreeLoop (k : String) (cmds : List Command) (inh : List Flag)
    (child : List (String × CmdNode)) (hu : noRepeat (cmds.map Command.Use) = true) :
    mapGet (cmdTreeLoop cmds inh child) k =
      match cmds.find? (fun v => v.Use = k) with
      | none => mapGet child k
      | some v => if excluded v then mapGet child k else some (cmdTree v inh) := by
  induction cmds generalizing child with
  | nil => simp [cmdTreeLoop]
  | cons c cs ih =>
    rw [List.map_cons, noRepeat_cons] at hu
    obtain ⟨hnot, hcs⟩ := hu
    by_cases hk : c.Use = k
    · subst hk
      have hnone := find_eq_none_of_not_mem _ cs hnot
      by_cases hx : excluded c = true
      · rw [cmdTreeLoop_cons_excluded _ _ _ _ hx, ih child hcs, hnone]
        simp [List.find?, hx]
      · rw [cmdTreeLoop_cons_kept _ _ _ _ hx, ih _ hcs, hnone]
        simp [List.find?, hx, mapGet_mapSet_self]
    · by_cases hx : excluded c = true
      · rw [cmdTreeLoop_cons_excluded _ _ _ _ hx, ih child hcs]
        simp [List.find?, hk]
      · rw [cmdTreeLoop_cons_kept _ _ _ _ hx, ih _ hcs]
        simp [List.find?, hk, mapGet_mapSet_ne _ _ _ _ hk]

theorem mapKeys_cmdTreeLoop (cmds : List Command) (inh : List Flag)
    (child : List (String × CmdNode)) (hu : noRepeat (cmds.map Command.Use) = true)
    (hd : ∀ k ∈ cmds.map Command.Use, k ∉ mapKeys child) :
    mapKeys (cmdTreeLoop cmds inh child) =
      mapKeys child ++ (cmds.filter (fun v => !excluded v)).map Command.Use := by
  induction cmds generalizing child with
  | nil => simp [cmdTreeLoop]
  | cons c cs ih =>
    rw [List.map_cons, noRepeat_cons] at hu
    obtain ⟨hnot, hcs⟩ := hu
    have hc : c.Use ∉ mapKeys child := hd _ (by simp)
    have hd' : ∀ k ∈ cs.map Command.Use, k ∉ mapKeys child := fun k hk =>
      hd k (by simp only [List.map_cons, List.mem_cons]; exact Or.inr hk)
    by_cases hx : excluded c = true
    · rw [cmdTreeLoop_cons_excluded _ _ _ _ hx, ih child hcs hd']
      simp [List.filter_cons, hx]
    · rw [cmdTreeLoop_cons_kept _ _ _ _ hx, ih _ hcs]
      · simp [List.filter_cons, hx, mapKeys_mapSet_new _ _ _ hc]
      · intro k hk
        rw [mapKeys_mapSet_new _ _ _ hc]
        simp only [List.mem_append, List.mem_singleton, not_or]
        refine ⟨hd' k hk, ?_⟩
        rintro rfl
        exact hnot hk

theorem name_of_mapGet_cmdTreeLoop (k : String) (cmds : List Command) (inh : List Flag)
    (child : List (String × CmdNode)) (n : CmdNode)
    (hc : ∀ m, mapGet child k = some m → m.name = k)
    (h : mapGet (cmdTreeLoop cmds inh child) k = some n) : n.name = k := by
  induction cmds generalizing child with
  | nil => exact hc n (by simpa [cmdTreeLoop] using h)
  | cons c cs ih =>
    by_cases hx : excluded c = true
    · rw [cmdTreeLoop_cons_excluded _ _ _ _ hx] at h
      exact ih child hc h
    · rw [cmdTreeLoop_cons_kept _ _ _ _ hx] at h
      refine ih _ ?_ h
      intro m hm
      by_cases hk : c.Use = k
      · rw [hk, mapGet_mapSet_self] at hm
        cases c with
        | mk use hidden pf fl cmds =>
          simp only [Option.some.injEq] at hm
          subst hm
          simpa [cmdTree, CmdNode.name, Command.Use] using hk
      · rw [mapGet_mapSet_ne _ _ _ _ hk] at hm
        exact hc m hm

theorem cmdTree_child (c : Command) (inherited : List Flag) :
    (cmdTree c inherited).child = cmdTreeLoop c.Commands c.PersistentFlags [] := by
  cases c with
  | mk use hidden pf fl cmds =>
    simp [cmdTree, CmdNode.child, Command.Commands, Command.PersistentFlags]

theorem cmdTree_name (c : Command) (inherited : List Flag) :
    (cmdTree c inherited).name = c.Use := by
  cases c with
  | mk use hidden pf fl cmds => simp [cmdTree, CmdNode.name, Command.Use]

theorem siblingUnique_iff (c : Command) :
    siblingUnique c = true ↔
      noRepeat (c.Commands.map Command.Use) = true ∧ siblingUniqueAll c.Commands = true := by
  cases c with
  | mk use hidden pf fl cmds => simp [siblingUnique, Command.Commands]

theorem resolve_cmdTree (chain : List String) (c : Command) (inherited : List Flag)
    (hu : siblingUnique c = true) :
    resolve (cmdTree c inherited) chain
      = (defResolve c inherited chain).map (fun p => cmdTree p.1 p.2) := by
  induction chain generalizing c inherited with
  | nil => simp [resolve, defResolve]
  | cons k ks ih =>
    obtain ⟨h1, h2⟩ := (siblingUnique_iff c).1 hu
    simp only [resolve, defResolve, cmdTree_child, mapGet_cmdTreeLoop k _ _ _ h1]
    cases hf : c.Commands.find? (fun v => v.Use = k) with
    | none => simp [mapGet]
    | some v =>
      have hv : v ∈ c.Commands := List.mem_of_find?_eq_some hf
      by_cases hx : excluded v = true
      · simp [hx, mapGet]
      · simp only [hx, if_false]
        exact ih v _ (siblingUniqueAll_mem _ h2 v hv)

/-! ## Lemmas on `addNode` -/

mutual
theorem nameChains_length : ∀ n : CmdNode, (nameChains n).length = nodeCount n
  | .mk name child flags => by
    simp only [nameChains, nodeCount, List.length_cons, List.length_map]
    rw [nameChainsChildren_length child]
    omega
theorem nameChainsChildren_length :
    ∀ cs : List (String × CmdNode), (nameChainsChildren cs).length = nodeCountChildren cs
  | [] => by simp [nameChainsChildren, nodeCountChildren]
  | (k, v) :: rest => by
    simp only [nameChainsChildren, nodeCountChildren, List.length_append]
    rw [nameChains_length v, nameChainsChildren_length rest]
end

theorem noRepeat_iff_nodup (l : List String) : noRepeat l = true ↔ l.Nodup := by
  induction l with
  | nil => simp [noRepeat]
  | cons x xs ih => simp [noRepeat, ih]

theorem mapKeys_mapSet_old {α : Type} (m : List (String × α)) (k : String) (v : α)
    (h : k ∈ mapKeys m) : mapKeys (mapSet m k v) = mapKeys m := by
  induction m with
  | nil => simp [mapKeys] at h
  | cons p rest ih =>
    obtain ⟨k0, v0⟩ := p
    by_cases h0 : k0 = k
    · subst h0; simp [mapSet, mapKeys]
    · have hr : k ∈ mapKeys rest := by
        simp only [mapKeys, List.map_cons, List.mem_cons] at h
        rcases h with h | h
        · exact absurd h.symm h0
        · exact h
      have := ih hr
      simp only [mapKeys] at this
      simp [mapSet, mapKeys, h0, this]

theorem nodup_mapKeys_mapSet {α : Type} (m : List (String × α)) (k : String) (v : α)
    (h : (mapKeys m).Nodup) : (mapKeys (mapSet m k v)).Nodup := by
  by_cases hk : k ∈ mapKeys m
  · rw [mapKeys_mapSet_old m k v hk]; exact h
  · rw [mapKeys_mapSet_new m k v hk]
    exact List.nodup_append.2 ⟨h, List.nodup_singleton k, by simpa using hk⟩

theorem mem_mapSet {α : Type} (m : List (String × α)) (k : String) (v : α)
    (p : String × α) (hp : p ∈ mapSet m k v) : p ∈ m ∨ p = (k, v) := by
  induction m with
  | nil => simpa [mapSet] using hp
  | cons q rest ih =>
    obtain ⟨k0, v0⟩ := q
    by_cases h0 : k0 = k
    · simp only [mapSet, h0, if_true, List.mem_cons] at hp
      rcases hp with hp | hp
      · exact Or.inr hp
      · exact Or.inl (List.mem_cons_of_mem _ hp)
    · simp only [mapSet, h0, if_false, List.mem_cons] at hp
      rcases hp with hp | hp
      · exact Or.inl (by simp [hp])
      · rcases ih hp with h | h
        · exact Or.inl (List.mem_cons_of_mem _ h)
        · exact Or.inr h

theorem splitChars_append_sep (sep : Char) (a b : List Char) :
    splitChars sep (a ++ sep :: b) = splitChars sep a ++ splitChars sep b := by
  induction a with
  | nil => simp [splitChars]
  | cons c a ih =>
    by_cases hc : c = sep
    · simp [splitChars, hc, ih]
    · have hne := splitChars_ne_nil sep a
      cases hs : splitChars sep a with
      | nil => exact absurd hs hne
      | cons p ps =>
        rw [hs] at ih
        have hstep : splitChars sep (c :: (a ++ sep :: b))
            = match splitChars sep (a ++ sep :: b) with
              | [] => [[c]]
              | q :: qs => (c :: q) :: qs := by
          simp only [splitChars, hc, if_false]
        rw [List.cons_append, hstep, ih]
        simp only [splitChars, hc, if_false, hs, List.cons_append]

theorem splitChars_of_not_mem (sep : Char) (a : List Char) (h : sep ∉ a) :
    splitChars sep a = [a] := by
  induction a with
  | nil => simp [splitChars]
  | cons c a ih =>
    simp only [List.mem_cons, not_or] at h
    have hc : ¬ c = sep := fun e => h.1 e.symm
    simp [splitChars, hc, ih h.2]

theorem chainKey_cons (path n : String) (chain : List String) :
    chainKey path (n :: chain) = chainKey (path ++ "/" ++ n) chain := rfl

theorem splitChars_chainKey (chain : List String) (path : String)
    (h : ∀ x ∈ chain, '/' ∉ x.data) :
    splitChars '/' (chainKey path chain).data
      = splitChars '/' path.data ++ chain.map String.data := by
  induction chain generalizing path with
  | nil => simp [chainKey]
  | cons n rest ih =>
    rw [chainKey_cons, ih _ (fun x hx => h x (List.mem_cons_of_mem _ hx))]
    have hd : (path ++ "/" ++ n).data = path.data ++ '/' :: n.data := by
      simp [String.data_append]
    rw [hd, splitChars_append_sep, splitChars_of_not_mem _ _ (h n (by simp))]
    simp

theorem chainKey_injective (c1 c2 : List String)
    (h1 : ∀ x ∈ c1, '/' ∉ x.data) (h2 : ∀ x ∈ c2, '/' ∉ x.data)
    (h : chainKey "" c1 = chainKey "" c2) : c1 = c2 := by
  have e1 := splitChars_chainKey c1 "" h1
  have e2 := splitChars_chainKey c2 "" h2
  rw [h, e2] at e1
  have e3 : c2.map String.data = c1.map String.data := List.append_cancel_left e1
  have hinj : Function.Injective String.data := fun a b hab => String.ext hab
  exact ((List.map_injective_iff.2 hinj) e3).symm

theorem chainKey_eq_pathKey (n : String) (chain : List String) (path : String) :
    chainKey path (n :: chain) = path ++ "/" ++ Join (n :: chain) "/" := by
  induction chain generalizing path n with
  | nil => simp [chainKey, Join]
  | cons m rest ih =>
    rw [chainKey_cons, ih, Join_cons_cons]
    simp [String.append_assoc]

mutual
theorem nil_not_mem_nameChains : ∀ n : CmdNode, [] ∉ nameChains n
  | .mk name child flags => by simp [nameChains]
theorem head_of_mem_nameChains :
    ∀ (n : CmdNode) (ch : List String), ch ∈ nameChains n → ch.head? = some n.name
  | .mk name child flags, ch, h => by
    simp only [nameChains, List.mem_cons, List.mem_map] at h
    rcases h with rfl | ⟨t, _, rfl⟩ <;> simp [CmdNode.name]
end

theorem head_of_mem_nameChainsChildren (cs : List (String × CmdNode)) (ch : List String)
    (h : ch ∈ nameChainsChildren cs) : ∃ x ∈ childNames cs, ch.head? = some x := by
  induction cs with
  | nil => simp [nameChainsChildren] at h
  | cons p rest ih =>
    obtain ⟨k, v⟩ := p
    simp only [nameChainsChildren, List.mem_append] at h
    rcases h with h | h
    · exact ⟨v.name, by simp [childNames], head_of_mem_nameChains v ch h⟩
    · obtain ⟨x, hx, hh⟩ := ih h
      exact ⟨x, by simp only [childNames, List.map_cons, List.mem_cons] at hx ⊢; exact Or.inr hx,
        hh⟩

mutual
theorem nodup_nameChains : ∀ n : CmdNode, distinctNames n = true → (nameChains n).Nodup
  | .mk name child flags, h => by
    simp only [distinctNames, Bool.and_eq_true] at h
    have hc := nodup_nameChainsChildren child h.2 h.1
    simp only [nameChains, List.nodup_cons, List.mem_map, not_exists, not_and]
    refine ⟨fun t hmem ht => ?_, ?_⟩
    · have ht' : t = [] := by simpa using ht
      subst ht'
      obtain ⟨x, _, hx⟩ := head_of_mem_nameChainsChildren child [] hmem
      simp at hx
    exact hc.map (fun a b hab => by simpa using hab)
theorem nodup_nameChainsChildren : ∀ cs : List (String × CmdNode),
    distinctNamesChildren cs = true → noRepeat (childNames cs) = true →
    (nameChainsChildren cs).Nodup
  | [], _, _ => by simp [nameChainsChildren]
  | (k, v) :: rest, h, hn => by
    simp only [distinctNamesChildren, Bool.and_eq_true] at h
    have hn' : v.name ∉ childNames rest ∧ noRepeat (childNames rest) = true := by
      simpa [childNames, noRepeat] using hn
    simp only [nameChainsChildren]
    refine List.nodup_append.2 ⟨nodup_nameChains v h.1,
      nodup_nameChainsChildren rest h.2 hn'.2, ?_⟩
    intro ch h1 h2
    have e1 := head_of_mem_nameChains v ch h1
    obtain ⟨x, hx, e2⟩ := head_of_mem_nameChainsChildren rest ch h2
    rw [e1] at e2
    have e3 : v.name = x := Option.some.inj e2
    exact hn'.1 (e3 ▸ hx)
end

mutual
theorem slashFree_nameChains : ∀ n : CmdNode, slashFree n = true →
    ∀ ch ∈ nameChains n, ∀ x ∈ ch, '/' ∉ x.data
  | .mk name child flags, h, ch, hch, x, hx => by
    simp only [slashFree, Bool.and_eq_true, Bool.not_eq_true', List.contains_eq_any_beq,
      List.any_eq_false] at h
    have hname : '/' ∉ name.data := by
      intro hm
      have := h.1 _ hm
      simp at this
    simp only [nameChains, List.mem_cons, List.mem_map] at hch
    rcases hch with rfl | ⟨t, ht, rfl⟩
    · simp only [List.mem_singleton] at hx; subst hx; exact hname
    · rcases List.mem_cons.1 hx with rfl | hx
      · exact hname
      · exact slashFree_nameChainsChildren child h.2 t ht x hx
theorem slashFree_nameChainsChildren : ∀ cs : List (String × CmdNode),
    slashFreeChildren cs = true → ∀ ch ∈ nameChainsChildren cs, ∀ x ∈ ch, '/' ∉ x.data
  | [], _, ch, hch, _, _ => by simp [nameChainsChildren] at hch
  | (k, v) :: rest, h, ch, hch, x, hx => by
    simp only [slashFreeChildren, Bool.and_eq_true] at h
    simp only [nameChainsChildren, List.mem_append] at hch
    rcases hch with hch | hch
    · exact slashFree_nameChains v h.1 ch hch x hx
    · exact slashFree_nameChainsChildren rest h.2 ch hch x hx
end

mutual
theorem mapKeys_addNode : ∀ (n : CmdNode) (path : String) (paths : Paths),
    (mapKeys paths ++ (nameChains n).map (chainKey path)).Nodup →
    mapKeys (addNode n path paths) = mapKeys paths ++ (nameChains n).map (chainKey path)
  | .mk name child flags, path, paths, h => by
    have e : (nameChains (.mk name child flags)).map (chainKey path)
        = (path ++ "/" ++ name)
          :: (nameChainsChildren child).map (chainKey (path ++ "/" ++ name)) := by
      simp [nameChains, chainKey, Function.comp_def]
    rw [e] at h ⊢
    have hnew : path ++ "/" ++ name ∉ mapKeys paths := by
      intro hm
      exact (List.nodup_append.1 h).2.2 hm (by simp)
    have hk := mapKeys_mapSet_new paths (path ++ "/" ++ name)
      [("get", (CmdNode.mk name child flags).toPathEntry)] hnew
    simp only [addNode]
    rw [mapKeys_addNodeChildren child _ _ (by rw [hk]; simpa using h), hk]
    simp
theorem mapKeys_addNodeChildren : ∀ (cs : List (String × CmdNode)) (nPath : String)
    (paths : Paths),
    (mapKeys paths ++ (nameChainsChildren cs).map (chainKey nPath)).Nodup →
    mapKeys (addNodeChildren cs nPath paths)
      = mapKeys paths ++ (nameChainsChildren cs).map (chainKey nPath)
  | [], nPath, paths, _ => by simp [addNodeChildren, nameChainsChildren]
  | (k, v) :: rest, nPath, paths, h => by
    simp only [nameChainsChildren, List.map_append] at h ⊢
    have h1 : (mapKeys paths ++ (nameChains v).map (chainKey nPath)).Nodup := by
      rw [← List.append_assoc] at h
      exact (List.nodup_append.1 h).1
    have e1 := mapKeys_addNode v nPath paths h1
    simp only [addNodeChildren]
    rw [mapKeys_addNodeChildren rest nPath _ (by rw [e1, List.append_assoc]; exact h), e1]
    simp
end

theorem chainKey_empty_eq_pathKey (n : CmdNode) (ch : List String) (h : ch ∈ nameChains n) :
    chainKey "" ch = pathKey ch := by
  cases ch with
  | nil => exact absurd h (nil_not_mem_nameChains n)
  | cons x rest =>
    rw [chainKey_eq_pathKey, pathKey]
    apply String.ext
    simp [String.data_append]

theorem pathKey_injective_on (n : CmdNode) (hf : slashFree n = true)
    (c1 : List String) (h1 : c1 ∈ nameChains n) (c2 : List String) (h2 : c2 ∈ nameChains n)
    (h : pathKey c1 = pathKey c2) : c1 = c2 := by
  rw [← chainKey_empty_eq_pathKey n c1 h1, ← chainKey_empty_eq_pathKey n c2 h2] at h
  exact chainKey_injective c1 c2 (slashFree_nameChains n hf c1 h1)
    (slashFree_nameChains n hf c2 h2) h

theorem mapKeys_swaggerPaths (s : Server) (hd : distinctNames s.cmdTree = true)
    (hf : slashFree s.cmdTree = true) :
    mapKeys (swaggerPaths s) = (nameChains s.cmdTree).map pathKey ∧
      ((nameChains s.cmdTree).map pathKey).Nodup := by
  have hmap : (nameChains s.cmdTree).map (chainKey "") = (nameChains s.cmdTree).map pathKey :=
    List.map_congr_left (fun ch hch => chainKey_empty_eq_pathKey s.cmdTree ch hch)
  have hnd : ((nameChains s.cmdTree).map pathKey).Nodup :=
    List.Nodup.map_on (fun c1 h1 c2 h2 h => pathKey_injective_on s.cmdTree hf c1 h1 c2 h2 h)
      (nodup_nameChains s.cmdTree hd)
  refine ⟨?_, hnd⟩
  unfold swaggerPaths
  rw [mapKeys_addNode s.cmdTree "" [] (by rw [hmap]; simpa [mapKeys] using hnd), hmap]
  simp [mapKeys]

/-! ## Lemmas on the trees built by `cmdTree` -/

theorem distinctNamesChildren_iff (cs : List (String × CmdNode)) :
    distinctNamesChildren cs = true ↔ ∀ p ∈ cs, distinctNames p.2 = true := by
  induction cs with
  | nil => simp [distinctNamesChildren]
  | cons p rest ih =>
    obtain ⟨k, v⟩ := p
    simp [distinctNamesChildren, ih]

theorem childNames_eq_mapKeys (cs : List (String × CmdNode))
    (h : ∀ p ∈ cs, p.2.name = p.1) : childNames cs = mapKeys cs := by
  induction cs with
  | nil => rfl
  | cons p rest ih =>
    have := ih (fun q hq => h q (List.mem_cons_of_mem _ hq))
    simp only [childNames, mapKeys] at this
    simp [childNames, mapKeys, h p (by simp), this]

theorem cmdTreeLoop_invariant (cmds : List Command) (inh : List Flag)
    (child : List (String × CmdNode))
    (h1 : ∀ p ∈ child, p.2.name = p.1) (h2 : (mapKeys child).Nodup) :
    (∀ p ∈ cmdTreeLoop cmds inh child, p.2.name = p.1) ∧
      (mapKeys (cmdTreeLoop cmds inh child)).Nodup := by
  induction cmds generalizing child with
  | nil => exact ⟨by simpa [cmdTreeLoop] using h1, by simpa [cmdTreeLoop] using h2⟩
  | cons c cs ih =>
    by_cases hx : excluded c = true
    · rw [cmdTreeLoop_cons_excluded _ _ _ _ hx]
      exact ih child h1 h2
    · rw [cmdTreeLoop_cons_kept _ _ _ _ hx]
      refine ih _ ?_ (nodup_mapKeys_mapSet _ _ _ h2)
      intro p hp
      rcases mem_mapSet _ _ _ _ hp with hp | rfl
      · exact h1 p hp
      · exact cmdTree_name c inh

mutual
theorem distinctNames_cmdTree : ∀ (c : Command) (inherited : List Flag),
    distinctNames (cmdTree c inherited) = true
  | .mk use hidden pflags flags cmds, inherited => by
    have inv := cmdTreeLoop_invariant cmds pflags [] (by simp) (by simp [mapKeys])
    simp only [cmdTree, distinctNames, Bool.and_eq_true]
    refine ⟨?_, distinctNames_cmdTreeLoop cmds pflags [] (by simp [distinctNamesChildren])⟩
    rw [childNames_eq_mapKeys _ inv.1, noRepeat_iff_nodup]
    exact inv.2
theorem distinctNames_cmdTreeLoop : ∀ (cmds : List Command) (inh : List Flag)
    (child : List (String × CmdNode)), distinctNamesChildren child = true →
    distinctNamesChildren (cmdTreeLoop cmds inh child) = true
  | [], _, child, h => by simpa [cmdTreeLoop] using h
  | c :: cs, inh, child, h => by
    by_cases hx : excluded c = true
    · rw [cmdTreeLoop_cons_excluded _ _ _ _ hx]
      exact distinctNames_cmdTreeLoop cs inh child h
    · rw [cmdTreeLoop_cons_kept _ _ _ _ hx]
      refine distinctNames_cmdTreeLoop cs inh _ ?_
      rw [distinctNamesChildren_iff] at h ⊢
      intro p hp
      rcases mem_mapSet _ _ _ _ hp with hp | rfl
      · exact h p hp
      · exact distinctNames_cmdTree c inh
end

theorem noRepeat_append (l1 l2 : List String) :
    noRepeat (l1 ++ l2) = true ↔
      noRepeat l1 = true ∧ noRepeat l2 = true ∧ ∀ x ∈ l1, x ∉ l2 := by
  simp only [noRepeat_iff_nodup, List.nodup_append, List.Disjoint]

/-! ## Lemmas on the handlers -/

theorem serveRun_of_resolve (Run : String → List String → ProcessResult) (s : Server)
    (e : Effects) (r : Request) (node : CmdNode)
    (hpre : HasPrefix r.URL.Path ("/" ++ s.rootName) = true)
    (hres : resolve s.cmdTree ((Split r.URL.Path '/').drop 2) = some node) :
    serveRun Run s e r =
      match (Run s.execPath (mappedArgs r.URL node)).err with
      | some m => .ok
        { w := httpError e.w ("Error: Failed to run command: " ++ m) 500,
          log := e.log ++ ["Error: Failed to run command: " ++ m],
          mapped := e.mapped ++ [r.URL],
          spawned := e.spawned ++ [(s.execPath, mappedArgs r.URL node)] }
      | none => .ok
        { w := e.w.Write
            (if (Run s.execPath (mappedArgs r.URL node)).stderr ≠ "" then
              (Run s.execPath (mappedArgs r.URL node)).stdout
                ++ ("(" ++ (Run s.execPath (mappedArgs r.URL node)).stderr ++ ")")
            else (Run s.execPath (mappedArgs r.URL node)).stdout),
          log := e.log,
          mapped := e.mapped ++ [r.URL],
          spawned := e.spawned ++ [(s.execPath, mappedArgs r.URL node)] } := by
  have hlen := Split_length_of_HasPrefix _ _ hpre
  have hg := generateCommand_of_resolve s r.URL node hlen hres
  unfold serveRun
  simp only [hpre, Bool.not_true, Bool.false_eq_true, if_false, hg, Option.getD_some]
  unfold runCommand mappedArgs
  generalize Run s.execPath ((Split r.URL.Path '/').drop 2
      ++ flagArgs r.URL.Query node.flags ++ argvArgs r.URL.Query) = p
  obtain ⟨out, er, m⟩ := p
  cases m <;> rfl

theorem httpError_status_body (w : ResponseWriter) (msg : String) (code : Nat)
    (hst : w.status = none) :
    (httpError w msg code).status = some code ∧
      (httpError w msg code).body = w.body ++ (msg ++ "\n") := by
  simp [httpError, ResponseWriter.WriteHeader, ResponseWriter.Write, hst]

theorem ServeHTTP_of_other_path (env : Env) (s : Server) (e : Effects) (r : Request)
    (h1 : r.URL.Path ≠ "/swaggerui") (h2 : r.URL.Path ≠ "/swagger")
    (h3 : HasPrefix r.URL.Path ("/" ++ s.rootName) = false) :
    ServeHTTP env s e r = .ok { e with log := e.log ++ [requestLine r] } := by
  unfold ServeHTTP serveRun
  simp [h1, h2, h3, requestLine]

theorem ServeHTTP_returns (env : Env) (s : Server) (e : Effects) (r : Request) :
    ∃ e' : Effects, ServeHTTP env s e r = .ok e' := by
  unfold ServeHTTP
  by_cases h1 : r.URL.Path = "/swaggerui"
  · simp [h1]
  · by_cases h2 : r.URL.Path = "/swagger"
    · simp [h2]
    · simp only [h1, h2, if_false]
      obtain ⟨e', he, _⟩ := serveRun_returns env.Run s
        { e with log := e.log ++ ["Request from " ++ r.RemoteAddr ++ ": " ++ r.RequestURI] } r
      exact ⟨e', he⟩

/-! ## Lemmas relating the generated paths and the mapper -/

mutual
theorem chainNodes_fst : ∀ n : CmdNode, (chainNodes n).map Prod.fst = nameChains n
  | .mk name child flags => by
    simp only [chainNodes, nameChains, List.map_cons, List.map_map]
    rw [← chainNodesChildren_fst child, List.map_map]
    rfl
theorem chainNodesChildren_fst : ∀ cs : List (String × CmdNode),
    (chainNodesChildren cs).map Prod.fst = nameChainsChildren cs
  | [] => by simp [chainNodesChildren, nameChainsChildren]
  | (k, v) :: rest => by
    simp only [chainNodesChildren, nameChainsChildren, List.map_append]
    rw [chainNodes_fst v, chainNodesChildren_fst rest]
end

theorem keysAreNamesChildren_iff (cs : List (String × CmdNode)) :
    keysAreNamesChildren cs = true ↔ ∀ p ∈ cs, p.2.name = p.1 ∧ keysAreNames p.2 = true := by
  induction cs with
  | nil => simp [keysAreNamesChildren]
  | cons p rest ih =>
    obtain ⟨k, v⟩ := p
    simp [keysAreNamesChildren, ih, and_assoc]

mutual
theorem keysAreNames_cmdTree : ∀ (c : Command) (inherited : List Flag),
    keysAreNames (cmdTree c inherited) = true
  | .mk use hidden pflags flags cmds, inherited => by
    simp only [cmdTree, keysAreNames]
    exact keysAreNames_cmdTreeLoop cmds pflags [] (by simp [keysAreNamesChildren])
theorem keysAreNames_cmdTreeLoop : ∀ (cmds : List Command) (inh : List Flag)
    (child : List (String × CmdNode)), keysAreNamesChildren child = true →
    keysAreNamesChildren (cmdTreeLoop cmds inh child) = true
  | [], _, child, h => by simpa [cmdTreeLoop] using h
  | c :: cs, inh, child, h => by
    by_cases hx : excluded c = true
    · rw [cmdTreeLoop_cons_excluded _ _ _ _ hx]
      exact keysAreNames_cmdTreeLoop cs inh child h
    · rw [cmdTreeLoop_cons_kept _ _ _ _ hx]
      refine keysAreNames_cmdTreeLoop cs inh _ ?_
      rw [keysAreNamesChildren_iff] at h ⊢
      intro p hp
      rcases mem_mapSet _ _ _ _ hp with hp | rfl
      · exact h p hp
      · exact ⟨cmdTree_name c inh, keysAreNames_cmdTree c inh⟩
end

theorem mapGet_of_mem {α : Type} (m : List (String × α)) (k : String) (v : α)
    (hn : (mapKeys m).Nodup) (h : (k, v) ∈ m) : mapGet m k = some v := by
  induction m with
  | nil => cases h
  | cons p rest ih =>
    obtain ⟨k0, v0⟩ := p
    simp only [mapKeys, List.map_cons, List.nodup_cons, List.mem_map, not_exists, not_and] at hn
    rcases List.mem_cons.1 h with e | hr
    · cases e; simp [mapGet]
    · have hk : ¬ k0 = k := fun e => hn.1 (k, v) hr e.symm
      simp only [mapGet, hk, if_false]
      exact ih (by simpa [mapKeys] using hn.2) hr

theorem mem_of_mapGet {α : Type} (m : List (String × α)) (k : String) (v : α)
    (h : mapGet m k = some v) : (k, v) ∈ m := by
  induction m with
  | nil => simp [mapGet] at h
  | cons p rest ih =>
    obtain ⟨k0, v0⟩ := p
    by_cases hk : k0 = k
    · simp only [mapGet, hk, if_true, Option.some.injEq] at h
      simp [hk, h]
    · simp only [mapGet, hk, if_false] at h
      exact List.mem_cons_of_mem _ (ih h)

theorem mem_nameChainsChildren (cs : List (String × CmdNode)) (p : String × CmdNode)
    (hp : p ∈ cs) (ch : List String) (h : ch ∈ nameChains p.2) :
    ch ∈ nameChainsChildren cs := by
  induction cs with
  | nil => cases hp
  | cons q rest ih =>
    obtain ⟨k, v⟩ := q
    simp only [nameChainsChildren, List.mem_append]
    rcases List.mem_cons.1 hp with e | hr
    · subst e; exact Or.inl h
    · exact Or.inr (ih hr)

theorem resolve_mk_cons (name : String) (child : List (String × CmdNode)) (flags : List Flag)
    (k : String) (ks : List String) :
    resolve (.mk name child flags) (k :: ks)
      = match mapGet child k with
        | none => none
        | some c => resolve c ks := rfl

mutual
theorem resolve_of_mem_chainNodes : ∀ n : CmdNode,
    keysAreNames n = true → distinctNames n = true →
    ∀ (ch : List String) (m : CmdNode), (ch, m) ∈ chainNodes n →
      ∃ tl : List String, ch = n.name :: tl ∧ resolve n tl = some m
  | .mk name child flags, hk, hd, ch, m, h => by
    simp only [keysAreNames] at hk
    simp only [distinctNames, Bool.and_eq_true] at hd
    simp only [chainNodes, List.mem_cons, List.mem_map, Prod.mk.injEq] at h
    rcases h with ⟨rfl, rfl⟩ | ⟨q, hq, rfl, rfl⟩
    · exact ⟨[], rfl, rfl⟩
    · obtain ⟨p, hp, tl, e, hr⟩ :=
        resolve_of_mem_chainNodesChildren child hk hd.2 q.1 q.2 hq
      have hkeys := (keysAreNamesChildren_iff child).1 hk
      have hnd : (mapKeys child).Nodup := by
        rw [← childNames_eq_mapKeys child (fun x hx => (hkeys x hx).1),
          ← noRepeat_iff_nodup]
        exact hd.1
      have hget : mapGet child p.2.name = some p.2 := by
        refine mapGet_of_mem child _ _ hnd ?_
        rw [(hkeys p hp).1]
        exact hp
      refine ⟨p.2.name :: tl, by simp [CmdNode.name, e], ?_⟩
      rw [resolve_mk_cons, hget]
      exact hr
theorem resolve_of_mem_chainNodesChildren : ∀ cs : List (String × CmdNode),
    keysAreNamesChildren cs = true → distinctNamesChildren cs = true →
    ∀ (ch : List String) (m : CmdNode), (ch, m) ∈ chainNodesChildren cs →
      ∃ p ∈ cs, ∃ tl : List String, ch = p.2.name :: tl ∧ resolve p.2 tl = some m
  | [], _, _, ch, m, h => by simp [chainNodesChildren] at h
  | (k, v) :: rest, hk, hd, ch, m, h => by
    simp only [keysAreNamesChildren, Bool.and_eq_true] at hk
    simp only [distinctNamesChildren, Bool.and_eq_true] at hd
    simp only [chainNodesChildren, List.mem_append] at h
    rcases h with h | h
    · obtain ⟨tl, e, hr⟩ := resolve_of_mem_chainNodes v hk.1.2 hd.1 ch m h
      exact ⟨(k, v), by simp, tl, e, hr⟩
    · obtain ⟨p, hp, tl, e, hr⟩ :=
        resolve_of_mem_chainNodesChildren rest hk.2 hd.2 ch m h
      exact ⟨p, List.mem_cons_of_mem _ hp, tl, e, hr⟩
end

theorem mem_nameChains_of_resolve (segs : List String) (n m : CmdNode)
    (hk : keysAreNames n = true) (h : resolve n segs = some m) :
    n.name :: segs ∈ nameChains n := by
  induction segs generalizing n with
  | nil =>
    cases n with
    | mk name child flags => simp [nameChains, CmdNode.name]
  | cons k ks ih =>
    cases n with
    | mk name child flags =>
      rw [resolve_mk_cons] at h
      simp only [keysAreNames] at hk
      cases hg : mapGet child k with
      | none => rw [hg] at h; simp at h
      | some c =>
        rw [hg] at h
        have hmem := mem_of_mapGet child k c hg
        obtain ⟨hname, hkc⟩ := (keysAreNamesChildren_iff child).1 hk (k, c) hmem
        have hch := ih c hkc h
        simp only at hname
        rw [hname] at hch
        have := mem_nameChainsChildren child (k, c) hmem _ hch
        simp only [nameChains, CmdNode.name, List.mem_cons, List.mem_map]
        exact Or.inr ⟨k :: ks, this, rfl⟩

theorem Split_pathKey (n : CmdNode) (hf : slashFree n = true) (ch : List String)
    (h : ch ∈ nameChains n) : Split (pathKey ch) '/' = "" :: ch := by
  rw [← chainKey_empty_eq_pathKey n ch h]
  unfold Split
  rw [splitChars_chainKey ch "" (slashFree_nameChains n hf ch h)]
  have e : splitChars '/' ("" : String).data = [[]] := rfl
  rw [e]
  simp only [List.singleton_append, List.map_cons, List.map_map]
  congr 1
  have hid : ∀ l : List String, l.map (String.mk ∘ String.data) = l := by
    intro l
    induction l with
    | nil => rfl
    | cons x xs ih => simp [ih]
  exact hid ch

theorem flagArgs_nil (flags : List Flag) : flagArgs [] flags = [] := by
  simp [flagArgs, Values.Get, mapGet]

theorem argvArgs_nil : argvArgs [] = [] := rfl

theorem lastKept_some (k : String) (cmds : List Command) (v : Command)
    (h : lastKept k cmds = some v) : v ∈ cmds ∧ v.Use = k ∧ excluded v = false := by
  induction cmds with
  | nil => simp [lastKept] at h
  | cons c cs ih =>
    simp only [lastKept] at h
    cases hl : lastKept k cs with
    | some w =>
      rw [hl] at h
      simp only [Option.some.injEq] at h
      subst h
      obtain ⟨h1, h2, h3⟩ := ih hl
      exact ⟨List.mem_cons_of_mem _ h1, h2, h3⟩
    | none =>
      rw [hl] at h
      by_cases hc : excluded c = false ∧ c.Use = k
      · simp only [hc, and_self, if_true, Option.some.injEq] at h
        subst h
        exact ⟨by simp, hc.2, hc.1⟩
      · simp [hc] at h

theorem mapGet_cmdTreeLoop_lastKept (k : String) (cmds : List Command) (inh : List Flag)
    (child : List (String × CmdNode)) :
    mapGet (cmdTreeLoop cmds inh child) k =
      match lastKept k cmds with
      | some v => some (cmdTree v inh)
      | none => mapGet child k := by
  induction cmds generalizing child with
  | nil => simp [cmdTreeLoop, lastKept]
  | cons c cs ih =>
    by_cases hx : excluded c = true
    · rw [cmdTreeLoop_cons_excluded _ _ _ _ hx, ih child]
      simp only [lastKept]
      cases lastKept k cs with
      | some w => rfl
      | none => simp [hx]
    · rw [cmdTreeLoop_cons_kept _ _ _ _ hx, ih]
      simp only [lastKept]
      cases lastKept k cs with
      | some w => rfl
      | none =>
        have hx' : excluded c = false := by simpa using hx
        by_cases hk : c.Use = k
        · subst hk
          simp [hx', mapGet_mapSet_self]
        · simp [hk, mapGet_mapSet_ne _ _ _ _ hk]

theorem resolve_cmdTree_definitionNode (chain : List String) (c : Command)
    (inherited : List Flag) :
    resolve (cmdTree c inherited) chain
      = (definitionNode c inherited chain).map (fun p => cmdTree p.1 p.2) := by
  induction chain generalizing c inherited with
  | nil => simp [resolve, definitionNode]
  | cons k ks ih =>
    simp only [resolve, definitionNode, cmdTree_child, mapGet_cmdTreeLoop_lastKept]
    cases lastKept k c.Commands with
    | none => simp [mapGet]
    | some v => exact ih v _

theorem definitionNode_append (pre : List String) (k : String) (c : Command)
    (inherited : List Flag) :
    definitionNode c inherited (pre ++ [k])
      = (definitionNode c inherited pre).bind
          (fun p => (lastKept k p.1.Commands).map (fun v => (v, p.1.PersistentFlags))) := by
  induction pre generalizing c inherited with
  | nil =>
    simp only [List.nil_append, definitionNode, Option.some_bind]
    cases lastKept k c.Commands <;> rfl
  | cons x xs ih =>
    simp only [List.cons_append, definitionNode]
    cases lastKept x c.Commands with
    | none => rfl
    | some v => exact ih v _

/-! ## Lemmas on the state-passing form -/

theorem getDescriptionM_run (s : Server) :
    getDescriptionM.run s = .ok (s.getDescription, s) := by
  unfold getDescriptionM Server.getDescription
  by_cases h : s.description = "" <;> simp [h, StateT.run, bind, StateT.bind, get, getThe,
    MonadStateOf.get, StateT.get, pure, StateT.pure, Except.bind, Except.pure]

theorem getVersionM_run (s : Server) : getVersionM.run s = .ok (s.getVersion, s) := by
  unfold getVersionM Server.getVersion
  by_cases h : s.version = "" <;> simp [h, StateT.run, bind, StateT.bind, get, getThe,
    MonadStateOf.get, StateT.get, pure, StateT.pure, Except.bind, Except.pure]

theorem serverSwaggerUIM_run (env : Env) (e : Effects) (s : Server) :
    (serverSwaggerUIM env e).run s = .ok (serverSwaggerUI env e, s) := rfl

theorem serverSwaggerFileM_run (env : Env) (e : Effects) (s : Server) :
    (serverSwaggerFileM env e).run s = .ok (serverSwaggerFile env s e, s) := by
  have h1 := getDescriptionM_run s
  have h2 := getVersionM_run s
  simp only [StateT.run] at h1 h2
  unfold serverSwaggerFileM serverSwaggerFile
  cases hm : env.Marshal (addNode s.cmdTree "" []) with
  | error err =>
    simp [hm, StateT.run, bind, StateT.bind, get, getThe, MonadStateOf.get, StateT.get, pure,
      StateT.pure, Except.bind, Except.pure]
  | ok d =>
    simp [hm, h1, h2, StateT.run, bind, StateT.bind, get, getThe, MonadStateOf.get, StateT.get,
      pure, StateT.pure, Except.bind, Except.pure]

theorem generateCommandM_run (url : URL) (s : Server) :
    (generateCommandM url).run s = (generateCommand s url).map (fun r => (r, s)) := by
  unfold generateCommandM generateCommand
  by_cases h : (Split url.Path '/').length < 2
  · simp [h, StateT.run, bind, StateT.bind, get, getThe,
      MonadStateOf.get, StateT.get, pure, StateT.pure, Except.bind, Except.pure, Except.map,
      throw, throwThe, MonadExceptOf.throw, StateT.lift, liftM, monadLift, MonadLift.monadLift]
  · cases hw : walkSegments ((Split url.Path '/').drop 2) s.cmdTree [] with
    | none =>
      simp [h, hw, StateT.run, bind, StateT.bind, get, getThe,
        MonadStateOf.get, StateT.get, pure, StateT.pure, Except.bind, Except.pure, Except.map]
    | some p =>
      obtain ⟨node, args⟩ := p
      simp [h, hw, StateT.run, bind, StateT.bind, get, getThe,
        MonadStateOf.get, StateT.get, pure, StateT.pure, Except.bind, Except.pure, Except.map]

theorem serveRunM_run (Run : String → List String → ProcessResult) (e : Effects) (r : Request)
    (s : Server) :
    (serveRunM Run e r).run s = (serveRun Run s e r).map (fun e' => (e', s)) := by
  unfold serveRunM serveRun
  by_cases h : HasPrefix r.URL.Path ("/" ++ s.rootName) = true
  · have hg := generateCommandM_run r.URL s
    simp only [StateT.run] at hg
    simp only [h, StateT.run, bind, StateT.bind, get, getThe,
        MonadStateOf.get, StateT.get, pure, StateT.pure, Except.bind, Except.pure, Except.map, hg,
        Bool.not_true, Bool.false_eq_true, if_false]
    cases hgc : generateCommand s r.URL with
    | error p => rfl
    | ok res =>
      obtain ⟨command, args, err⟩ := res
      cases err with
      | some m => rfl
      | none =>
        simp only []
        rcases hrun : runCommand Run command (args.getD []) with ⟨out, er, _ | m⟩ <;>
          simp [hrun] <;> rfl
  · simp [h, StateT.run, bind, StateT.bind, get, getThe,
      MonadStateOf.get, StateT.get, pure, StateT.pure, Except.bind, Except.pure, Except.map]

theorem ServeHTTPM_run (env : Env) (e : Effects) (r : Request) (s : Server) :
    (ServeHTTPM env e r).run s = (ServeHTTP env s e r).map (fun e' => (e', s)) := by
  unfold ServeHTTPM ServeHTTP
  by_cases h1 : r.URL.Path = "/swaggerui"
  · simp only [h1, if_true]
    exact serverSwaggerUIM_run env _ s
  · by_cases h2 : r.URL.Path = "/swagger"
    · simp only [h1, h2, if_true, if_false]
      exact serverSwaggerFileM_run env _ s
    · simp only [h1, h2, if_false]
      exact serveRunM_run env.Run _ r s

/-! ## Theorems -/

/-- C1: on a path whose segments after the root segment all resolve,
`generateCommand` returns the executable path and the argument list made of the
path segments after the root, then the `--<name>=<value>` arguments in the order
of the resolved node's flag list, then the pieces of `argv`; and the request
`/example/add?five=true&val=3` on the tree `example`/`add` with flags `five`,
`val` yields `add`, `--five=true`, `--val=3`. -/
theorem generateCommand_args_concat :
    (∀ (s : Server) (url : URL) (node : CmdNode),
      2 ≤ (Split url.Path '/').length →
      resolve s.cmdTree ((Split url.Path '/').drop 2) = some node →
      generateCommand s url = .ok ⟨s.execPath,
        some ((Split url.Path '/').drop 2
          ++ (node.flags.filter (fun f => url.Query.Get f.Name ≠ "")).map
              (fun f => "--" ++ f.Name ++ "=" ++ url.Query.Get f.Name)
          ++ (if url.Query.Get "argv" = "" then [] else Split (url.Query.Get "argv") ',')),
        none⟩) ∧
    (∀ exe description version : String,
      generateCommand ⟨addTree, "example", exe, description, version⟩
          ⟨"/example/add", [("five", ["true"]), ("val", ["3"])]⟩
        = .ok ⟨exe, some ["add", "--five=true", "--val=3"], none⟩) := by
  refine ⟨fun s url node hlen hres => ?_, fun exe description version => ?_⟩
  · exact generateCommand_of_resolve s url node hlen hres
  · rfl

theorem generateCommand_args_concat_witness :
    generateCommand ⟨addTree, "example", "/bin/example", "", ""⟩
        ⟨"/example/add", [("val", ["3"]), ("argv", ["x,y"]), ("five", ["true"])]⟩
      = .ok ⟨"/bin/example", some ["add", "--five=true", "--val=3", "x", "y"], none⟩ :=
  generateCommand_args_concat.1 ⟨addTree, "example", "/bin/example", "", ""⟩
    ⟨"/example/add", [("val", ["3"]), ("argv", ["x,y"]), ("five", ["true"])]⟩
    (.mk "add" [] [⟨"five", "Add 5 to val", "false"⟩, ⟨"val", "", "0"⟩])
    (by decide) (by rfl)

/-- C2: evaluated on the definition tree `example` (persistent flag `val`) /
`math` / `add` (own flag `five`), `cmdTree` gives the depth-2 node `add` the flag
list `five` alone: the persistent flag `val` of its grandparent is not in it. -/
theorem cmdTree_drops_grandparent_flags :
    (resolve (cmdTree deepCommand []) ["math", "add"]).map CmdNode.flags
      = some [⟨"five", "Add 5 to val", "false"⟩] := by
  rfl

/-- C3: on a path with at least two segments `generateCommand` returns; it
returns an error exactly when some segment after the root segment is not a key of
the children of the node reached so far, the failing result being the empty
command with no argument list and the successful one the executable path with an
argument list; and on such a failing path `serveRun` answers with status 500 and
spawns no process. -/
theorem generateCommand_fails_iff_unresolved :
    (∀ (s : Server) (url : URL), 2 ≤ (Split url.Path '/').length →
      ∃ res : CommandResult, generateCommand s url = .ok res ∧
        (res.err ≠ none ↔ Unresolved s.cmdTree ((Split url.Path '/').drop 2)) ∧
        (res.err ≠ none → res.command = "" ∧ res.args = none) ∧
        (res.err = none → res.command = s.execPath ∧ res.args ≠ none)) ∧
    (∀ (Run : String → List String → ProcessResult) (s : Server) (e : Effects)
        (r : Request),
      HasPrefix r.URL.Path ("/" ++ s.rootName) = true →
      Unresolved s.cmdTree ((Split r.URL.Path '/').drop 2) →
      e.w.status = none →
      ∃ e' : Effects, serveRun Run s e r = .ok e' ∧
        e'.w.status = some 500 ∧ e'.spawned = e.spawned) := by
  constructor
  · intro s url hlen
    cases hres : resolve s.cmdTree ((Split url.Path '/').drop 2) with
    | none =>
      refine ⟨_, generateCommand_of_unresolved s url hlen hres, ?_, ?_, ?_⟩
      · simp [← resolve_eq_none_iff, hres]
      · simp
      · simp
    | some node =>
      refine ⟨_, generateCommand_of_resolve s url node hlen hres, ?_, ?_, ?_⟩
      · simp [← resolve_eq_none_iff, hres]
      · simp
      · simp
  · intro Run s e r hpre hun hst
    have hlen := Split_length_of_HasPrefix _ _ hpre
    have hres := (resolve_eq_none_iff _ _).2 hun
    refine ⟨_, serveRun_of_unresolved Run s e r hpre hres, ?_, ?_⟩
    · simp [httpError, ResponseWriter.WriteHeader, ResponseWriter.Write, hst]
    · simp

theorem generateCommand_fails_iff_unresolved_witness :
    ∃ e' : Effects,
      serveRun (fun _ _ => ⟨"out", "", none⟩) ⟨addTree, "example", "/bin/example", "", ""⟩
          Effects.init ⟨⟨"/example/sub", []⟩, "127.0.0.1:4000", "/example/sub"⟩ = .ok e' ∧
        e'.w.status = some 500 ∧ e'.spawned = Effects.init.spawned :=
  generateCommand_fails_iff_unresolved.2 (fun _ _ => ⟨"out", "", none⟩)
    ⟨addTree, "example", "/bin/example", "", ""⟩ Effects.init
    ⟨⟨"/example/sub", []⟩, "127.0.0.1:4000", "/example/sub"⟩
    (by decide) ⟨[], "sub", [], addTree, by decide, rfl, rfl⟩ rfl

/-- C4, as stated, fails: the definition tree `example` / (`files` / `list`,
`files/list`) has sibling-unique names and no hidden or reserved node; the tree
built from it has four nodes, but the two nodes `list` and `files/list` get the
same key `/example/files/list`, so `paths` has three keys. -/
theorem swaggerPaths_keys_collide :
    siblingUnique slashCommand = true ∧
      nodeCount (cmdTree slashCommand []) = 4 ∧
      nameChains (cmdTree slashCommand [])
        = [["example"], ["example", "files"], ["example", "files", "list"],
            ["example", "files/list"]] ∧
      pathKey ["example", "files", "list"] = pathKey ["example", "files/list"] ∧
      mapKeys (swaggerPaths ⟨cmdTree slashCommand [], "example", "/bin/example", "", ""⟩)
        = ["/example", "/example/files", "/example/files/list"] :=
  ⟨by decide, by decide, by decide, by decide, by decide⟩

/-- C4, amended: when no name of the server's tree contains `/` (and siblings
have different names, which holds for every tree built by `cmdTree`), the keys
of the `paths` map built by `serverSwaggerFile` are, one per node, the chains of
names from the root to the node joined with `/` after a leading `/`: no key
occurs twice, different nodes get different keys, and there are as many keys as
nodes. -/
theorem swaggerPaths_keys_one_per_node :
    (∀ s : Server, distinctNames s.cmdTree = true → slashFree s.cmdTree = true →
      mapKeys (swaggerPaths s) = (nameChains s.cmdTree).map pathKey ∧
      (mapKeys (swaggerPaths s)).Nodup ∧
      (mapKeys (swaggerPaths s)).length = nodeCount s.cmdTree ∧
      (nameChains s.cmdTree).length = nodeCount s.cmdTree ∧
      (∀ c1 ∈ nameChains s.cmdTree, ∀ c2 ∈ nameChains s.cmdTree,
        pathKey c1 = pathKey c2 → c1 = c2)) ∧
    (∀ (c : Command) (inherited : List Flag),
      distinctNames (cmdTree c inherited) = true) := by
  refine ⟨fun s hd hf => ?_, distinctNames_cmdTree⟩
  obtain ⟨h1, h2⟩ := mapKeys_swaggerPaths s hd hf
  refine ⟨h1, h1 ▸ h2, ?_, nameChains_length _, pathKey_injective_on s.cmdTree hf⟩
  rw [h1, List.length_map, nameChains_length]

theorem swaggerPaths_keys_one_per_node_witness :
    mapKeys (swaggerPaths ⟨cmdTree deepCommand [], "example", "/bin/example", "", ""⟩)
        = (nameChains (cmdTree deepCommand [])).map pathKey ∧
      (mapKeys
        (swaggerPaths ⟨cmdTree deepCommand [], "example", "/bin/example", "", ""⟩)).Nodup ∧
      (mapKeys
        (swaggerPaths ⟨cmdTree deepCommand [], "example", "/bin/example", "", ""⟩)).length
        = nodeCount (cmdTree deepCommand []) ∧
      (nameChains (cmdTree deepCommand [])).length = nodeCount (cmdTree deepCommand []) ∧
      (∀ c1 ∈ nameChains (cmdTree deepCommand []), ∀ c2 ∈ nameChains (cmdTree deepCommand []),
        pathKey c1 = pathKey c2 → c1 = c2) :=
  swaggerPaths_keys_one_per_node.1
    ⟨cmdTree deepCommand [], "example", "/bin/example", "", ""⟩ (by decide) (by decide)

/-- C5: the operation built by `toPathEntry` lists one query parameter of type
`string` per flag of the node, named after the flag and in flag order, then the
query parameter `argv` of type `array` with string items, which makes one more
parameter than there are flags; its responses have the single key `200` with
description `OK`. -/
theorem toPathEntry_parameters (n : CmdNode) :
    n.toPathEntry.Parameters
        = n.flags.map (fun f => (⟨"query", "string", f.Name, none⟩ : param))
          ++ [⟨"query", "array", "argv", some [("type", "string")]⟩] ∧
      n.toPathEntry.Parameters.length = n.flags.length + 1 ∧
      (∀ i : Fin n.flags.length,
        n.toPathEntry.Parameters[i.val]?
          = some ⟨"query", "string", (n.flags.get i).Name, none⟩) ∧
      n.toPathEntry.Parameters[n.flags.length]?
        = some ⟨"query", "array", "argv", some [("type", "string")]⟩ ∧
      n.toPathEntry.Responses = [("200", ⟨"OK"⟩)] ∧
      mapKeys n.toPathEntry.Responses = ["200"] := by
  have hfold : ∀ (fs : List Flag) (m : entry),
      fs.foldl (fun m v =>
          { m with Parameters := m.Parameters ++ [⟨"query", "string", v.Name, none⟩] }) m
        = { m with Parameters :=
              m.Parameters ++ fs.map (fun f => (⟨"query", "string", f.Name, none⟩ : param)) } := by
    intro fs
    induction fs with
    | nil => intro m; simp
    | cons f fs ih => intro m; simp [ih]
  have hP : n.toPathEntry.Parameters
      = n.flags.map (fun f => (⟨"query", "string", f.Name, none⟩ : param))
        ++ [⟨"query", "array", "argv", some [("type", "string")]⟩] := by
    simp [CmdNode.toPathEntry, hfold]
  have hR : n.toPathEntry.Responses = [("200", ⟨"OK"⟩)] := by
    simp [CmdNode.toPathEntry, hfold]
  refine ⟨hP, ?_, ?_, ?_, hR, ?_⟩
  · simp [hP]
  · intro i
    rw [hP, List.getElem?_append_left (by simp)]
    simp
  · rw [hP, List.getElem?_append_right (by simp)]
    simp
  · simp [hR, mapKeys]

/-- C6: for a definition tree with sibling-unique names, a chain of names
resolves in the tree built by `cmdTree` exactly when it leads, in the definition
tree, through nodes that are neither hidden nor named with the prefix `help` or
`completion`, and the node it resolves to is the snapshot of that definition
node; the keys of a node's children are the names of the non-excluded children
of its definition, each child stored under its own name; the root is built
whatever its name and hidden marker. -/
theorem cmdTree_keeps_exactly_visible :
    (∀ (c : Command) (inherited : List Flag) (chain : List String),
      siblingUnique c = true →
      resolve (cmdTree c inherited) chain
        = (defResolve c inherited chain).map (fun p => cmdTree p.1 p.2)) ∧
    (∀ (c : Command) (inherited : List Flag), siblingUnique c = true →
      mapKeys (cmdTree c inherited).child
        = (c.Commands.filter (fun v => !excluded v)).map Command.Use) ∧
    (∀ (c : Command) (inherited : List Flag) (k : String) (n : CmdNode),
      mapGet (cmdTree c inherited).child k = some n → n.name = k) ∧
    (∀ (c : Command) (inherited : List Flag),
      (cmdTree c inherited).name = c.Use ∧
        resolve (cmdTree c inherited) [] = some (cmdTree c inherited)) := by
  refine ⟨fun c inh chain hu => resolve_cmdTree chain c inh hu, ?_, ?_, ?_⟩
  · intro c inh hu
    obtain ⟨h1, _⟩ := (siblingUnique_iff c).1 hu
    rw [cmdTree_child, mapKeys_cmdTreeLoop _ _ _ h1 (by simp [mapKeys])]
    simp [mapKeys]
  · intro c inh k n h
    rw [cmdTree_child] at h
    exact name_of_mapGet_cmdTreeLoop k _ _ [] n (by simp [mapGet]) h
  · intro c inh
    exact ⟨cmdTree_name c inh, rfl⟩

theorem cmdTree_keeps_exactly_visible_witness :
    mapKeys (cmdTree filteredCommand []).child = ["add"] ∧
      resolve (cmdTree filteredCommand []) ["server", "start"] = none ∧
      (resolve (cmdTree filteredCommand []) ["add", "helper"]).map CmdNode.name = none ∧
      (cmdTree filteredCommand []).name = "help" :=
  ⟨cmdTree_keeps_exactly_visible.2.1 filteredCommand [] (by decide),
   cmdTree_keeps_exactly_visible.1 filteredCommand [] ["server", "start"] (by decide),
   by rw [cmdTree_keeps_exactly_visible.1 filteredCommand [] ["add", "helper"] (by decide)]; rfl,
   (cmdTree_keeps_exactly_visible.2.2.2 filteredCommand []).1⟩

/-- C7, as stated, fails in both directions: the query `val=&val=3` holds the
non-empty value `3` under the flag name `val`, yet the arguments for
`/example/add` are `add` alone; and the query `argv=--val=3` holds nothing under
`val`, yet the arguments contain `--val=3`. -/
theorem generateCommand_skips_later_value :
    ((∃ vs : List String, mapGet [("val", ["", "3"])] "val" = some vs ∧ "3" ∈ vs ∧ "3" ≠ "") ∧
      generateCommand addServer ⟨"/example/add", [("val", ["", "3"])]⟩
        = .ok ⟨"/bin/example", some ["add"], none⟩) ∧
    (mapGet [("argv", ["--val=3"])] "val" = none ∧
      generateCommand addServer ⟨"/example/add", [("argv", ["--val=3"])]⟩
        = .ok ⟨"/bin/example", some ["add", "--val=3"], none⟩) :=
  ⟨⟨⟨["", "3"], rfl, by decide, by decide⟩, rfl⟩, rfl, rfl⟩

/-- C7, amended: on a resolvable path the argument list is the path segments,
then the flag arguments, then the `argv` pieces, and the flag arguments are
obtained by going through the flags of the resolved node in order: a flag whose
first query value (`Values.Get`) is not empty gives the one argument
`--<name>=<that value>` and a flag whose first query value is empty gives none;
so the list contains that argument for every flag with a non-empty first value,
and a query that agrees on the first values of the node's flag names and of
`argv` gives the same result whatever other parameters it holds. -/
theorem generateCommand_flag_args_first_value (s : Server) (url : URL) (node : CmdNode)
    (hlen : 2 ≤ (Split url.Path '/').length)
    (hres : resolve s.cmdTree ((Split url.Path '/').drop 2) = some node) :
    generateCommand s url = .ok ⟨s.execPath,
        some ((Split url.Path '/').drop 2
          ++ node.flags.filterMap (fun f =>
              if url.Query.Get f.Name = "" then none
              else some ("--" ++ f.Name ++ "=" ++ url.Query.Get f.Name))
          ++ argvArgs url.Query), none⟩ ∧
      (∀ f ∈ node.flags, url.Query.Get f.Name ≠ "" →
        ∃ args : List String, generateCommand s url = .ok ⟨s.execPath, some args, none⟩ ∧
          "--" ++ f.Name ++ "=" ++ url.Query.Get f.Name ∈ args) ∧
      (∀ q' : Values, (∀ f ∈ node.flags, q'.Get f.Name = url.Query.Get f.Name) →
        q'.Get "argv" = url.Query.Get "argv" →
        generateCommand s ⟨url.Path, q'⟩ = generateCommand s url) := by
  have hfm : ∀ flags : List Flag,
      flags.filterMap (fun f =>
          if url.Query.Get f.Name = "" then none
          else some ("--" ++ f.Name ++ "=" ++ url.Query.Get f.Name))
        = flagArgs url.Query flags := by
    intro flags
    induction flags with
    | nil => rfl
    | cons f fs ih =>
      by_cases h : url.Query.Get f.Name = ""
      · simp only [List.filterMap_cons, h, if_true, ih]
        simp [flagArgs, List.filter_cons, h]
      · simp only [List.filterMap_cons, h, if_false, ih]
        simp [flagArgs, List.filter_cons, h]
  have hg := generateCommand_of_resolve s url node hlen hres
  refine ⟨by rw [hfm]; exact hg, ?_, ?_⟩
  · intro f hf hne
    refine ⟨_, hg, ?_⟩
    have hmem : "--" ++ f.Name ++ "=" ++ url.Query.Get f.Name ∈ flagArgs url.Query node.flags := by
      simp only [flagArgs, List.mem_map, List.mem_filter]
      exact ⟨f, ⟨hf, by simpa using hne⟩, rfl⟩
    exact List.mem_append_left _ (List.mem_append_right _ hmem)
  · intro q' hq hargv
    rw [hg, generateCommand_of_resolve s ⟨url.Path, q'⟩ node hlen hres]
    simp only [flagArgs_congr _ _ _ hq, argvArgs, hargv]

theorem generateCommand_flag_args_first_value_witness :
    generateCommand addServer ⟨"/example/add", [("val", ["3", ""]), ("other", ["1"])]⟩
      = .ok ⟨addServer.execPath,
        some ((Split "/example/add" '/').drop 2
          ++ (CmdNode.mk "add" [] [⟨"five", "Add 5 to val", "false"⟩,
                ⟨"val", "", "0"⟩]).flags.filterMap (fun f =>
              if Values.Get [("val", ["3", ""]), ("other", ["1"])] f.Name = "" then none
              else some ("--" ++ f.Name ++ "="
                ++ Values.Get [("val", ["3", ""]), ("other", ["1"])] f.Name))
          ++ argvArgs [("val", ["3", ""]), ("other", ["1"])]), none⟩ :=
  (generateCommand_flag_args_first_value addServer
    ⟨"/example/add", [("val", ["3", ""]), ("other", ["1"])]⟩
    (.mk "add" [] [⟨"five", "Add 5 to val", "false"⟩, ⟨"val", "", "0"⟩])
    (by decide) (by rfl)).1

/-- C8: on a resolvable path, when the `argv` value `v` of the query is not empty
the argument list ends, after the flag arguments, with the pieces of `v` cut at
each comma; there is one piece more than `v` has commas and joining the pieces
with a comma gives `v` back; when `argv` is absent or empty the argument list ends
with the flag arguments.  The request `/example/add?val=3&argv=x,y` yields `add`,
`--val=3`, `x`, `y`. -/
theorem generateCommand_argv_pieces :
    (∀ (s : Server) (url : URL) (node : CmdNode),
      2 ≤ (Split url.Path '/').length →
      resolve s.cmdTree ((Split url.Path '/').drop 2) = some node →
      (url.Query.Get "argv" ≠ "" →
        generateCommand s url = .ok ⟨s.execPath,
          some (((Split url.Path '/').drop 2 ++ flagArgs url.Query node.flags)
            ++ Split (url.Query.Get "argv") ','), none⟩ ∧
        (Split (url.Query.Get "argv") ',').length
          = (url.Query.Get "argv").data.count ',' + 1 ∧
        Join (Split (url.Query.Get "argv") ',') "," = url.Query.Get "argv") ∧
      ((mapGet url.Query "argv" = none ∨ url.Query.Get "argv" = "") →
        generateCommand s url = .ok ⟨s.execPath,
          some ((Split url.Path '/').drop 2 ++ flagArgs url.Query node.flags), none⟩)) ∧
    generateCommand addServer ⟨"/example/add", [("val", ["3"]), ("argv", ["x,y"])]⟩
      = .ok ⟨"/bin/example", some ["add", "--val=3", "x", "y"], none⟩ := by
  refine ⟨fun s url node hlen hres => ⟨fun hv => ⟨?_, Split_length _ _, Join_Split _ _⟩,
    fun hv => ?_⟩, rfl⟩
  · rw [generateCommand_of_resolve s url node hlen hres]
    simp [argvArgs, hv]
  · have hv' : url.Query.Get "argv" = "" := by
      rcases hv with hv | hv
      · simp [Values.Get, hv]
      · exact hv
    rw [generateCommand_of_resolve s url node hlen hres]
    simp [argvArgs, hv']

theorem generateCommand_argv_pieces_witness :
    generateCommand addServer ⟨"/example/add", [("argv", ["a,,b"])]⟩
        = .ok ⟨addServer.execPath,
          some (((Split "/example/add" '/').drop 2
              ++ flagArgs [("argv", ["a,,b"])]
                (CmdNode.mk "add" [] [⟨"five", "Add 5 to val", "false"⟩, ⟨"val", "", "0"⟩]).flags)
            ++ Split (Values.Get [("argv", ["a,,b"])] "argv") ','), none⟩ ∧
      (Split (Values.Get [("argv", ["a,,b"])] "argv") ',').length
        = (Values.Get [("argv", ["a,,b"])] "argv").data.count ',' + 1 ∧
      Join (Split (Values.Get [("argv", ["a,,b"])] "argv") ',') ","
        = Values.Get [("argv", ["a,,b"])] "argv" :=
  (generateCommand_argv_pieces.1 addServer ⟨"/example/add", [("argv", ["a,,b"])]⟩
    (.mk "add" [] [⟨"five", "Add 5 to val", "false"⟩, ⟨"val", "", "0"⟩])
    (by decide) (by rfl)).1 (by decide)

/-- C9, as stated, fails: the failing paths `/example/foo` and `/example/bar`
have different unmatched segments, yet `generateCommand` returns the same error
and `serveRun` writes the same response for both. -/
theorem generateCommand_error_same_for_all_segments :
    "foo" ≠ "bar" ∧
      generateCommand addServer ⟨"/example/foo", []⟩
        = .ok ⟨"", none, some "Exepected path in url."⟩ ∧
      generateCommand addServer ⟨"/example/bar", []⟩
        = .ok ⟨"", none, some "Exepected path in url."⟩ ∧
      (serveRun runOk addServer Effects.init (requestOf "/example/foo" [])).map (fun e => e.w)
        = (serveRun runOk addServer Effects.init (requestOf "/example/bar" [])).map
            (fun e => e.w) :=
  ⟨by decide, rfl, rfl, rfl⟩

/-- C9, amended: when `generateCommand` fails on a segment with no matching
child, the error it returns is the fixed text `Exepected path in url.`, which names
neither the segment nor the path resolved so far; `serveRun` then logs
`Error: Failed to generate command: Exepected path in url.` and writes that line
with status 500, whatever the failing path. -/
theorem generateCommand_error_is_fixed (Run : String → List String → ProcessResult)
    (s : Server) (e : Effects) (r : Request)
    (hpre : HasPrefix r.URL.Path ("/" ++ s.rootName) = true)
    (hun : Unresolved s.cmdTree ((Split r.URL.Path '/').drop 2))
    (hst : e.w.status = none) :
    generateCommand s r.URL = .ok ⟨"", none, some "Exepected path in url."⟩ ∧
      ∃ e' : Effects, serveRun Run s e r = .ok e' ∧
        e'.w.status = some 500 ∧
        e'.w.body = e.w.body
          ++ "Error: Failed to generate command: Exepected path in url.\n" ∧
        e'.log = e.log ++ ["Error: Failed to generate command: Exepected path in url."] := by
  have hlen := Split_length_of_HasPrefix _ _ hpre
  have hres := (resolve_eq_none_iff _ _).2 hun
  refine ⟨generateCommand_of_unresolved s r.URL hlen hres, _,
    serveRun_of_unresolved Run s e r hpre hres, ?_, ?_, ?_⟩
  · simp [httpError, ResponseWriter.WriteHeader, ResponseWriter.Write, hst]
  · simp only [httpError, ResponseWriter.WriteHeader, ResponseWriter.Write, hst]
    rfl
  · rfl

theorem generateCommand_error_is_fixed_witness :
    generateCommand addServer (requestOf "/example/add/deeper" []).URL
        = .ok ⟨"", none, some "Exepected path in url."⟩ ∧
      ∃ e' : Effects,
        serveRun runOk addServer Effects.init (requestOf "/example/add/deeper" []) = .ok e' ∧
        e'.w.status = some 500 ∧
        e'.w.body = Effects.init.w.body
          ++ "Error: Failed to generate command: Exepected path in url.\n" ∧
        e'.log = Effects.init.log
          ++ ["Error: Failed to generate command: Exepected path in url."] :=
  generateCommand_error_is_fixed runOk addServer Effects.init
    (requestOf "/example/add/deeper" []) (by decide)
    ⟨["add"], "deeper", [], .mk "add" [] [⟨"five", "Add 5 to val", "false"⟩, ⟨"val", "", "0"⟩],
      by decide, rfl, rfl⟩ rfl

/-- C10, as stated, fails: with root name `example` the path `/examplex/add` has
the first segment `examplex`, different from the root name, yet `serveRun` hands
it to `generateCommand` and spawns the executable with the argument `add`. -/
theorem serveRun_maps_foreign_first_segment :
    (Split "/examplex/add" '/')[1]? = some "examplex" ∧ "examplex" ≠ addServer.rootName ∧
      (serveRun runOk addServer Effects.init (requestOf "/examplex/add" [])).map
          (fun e => (e.mapped.map URL.Path, e.spawned, e.w))
        = .ok (["/examplex/add"], [("/bin/example", ["add"])],
            ⟨[], some 200, "ok"⟩) :=
  ⟨by decide, by decide, rfl⟩

/-- C10, amended: `serveRun` always returns; every URL it hands to
`generateCommand` has a path that begins with `/` followed by the root name, as a
string prefix; a request whose path does not begin so is dropped before mapping:
nothing is mapped, spawned, logged or written. -/
theorem serveRun_maps_only_prefixed_paths
    (Run : String → List String → ProcessResult) (s : Server) (e : Effects) (r : Request) :
    (∃ e' : Effects, serveRun Run s e r = .ok e' ∧
      ∀ u ∈ e'.mapped, u ∈ e.mapped ∨
        (u = r.URL ∧ HasPrefix u.Path ("/" ++ s.rootName) = true)) ∧
    (HasPrefix r.URL.Path ("/" ++ s.rootName) = false → serveRun Run s e r = .ok e) := by
  constructor
  · obtain ⟨e', h1, h2⟩ := serveRun_returns Run s e r
    refine ⟨e', h1, fun u hu => ?_⟩
    rcases h2 with h2 | ⟨h2, h3⟩
    · exact Or.inl (h2 ▸ hu)
    · rw [h2, List.mem_append, List.mem_singleton] at hu
      rcases hu with hu | hu
      · exact Or.inl hu
      · exact Or.inr ⟨hu, hu ▸ h3⟩
  · intro h
    unfold serveRun
    simp [h]

theorem serveRun_maps_only_prefixed_paths_witness :
    serveRun runOk addServer Effects.init (requestOf "/other/add" []) = .ok Effects.init :=
  (serveRun_maps_only_prefixed_paths runOk addServer Effects.init
    (requestOf "/other/add" [])).2 (by decide)

/-- C11, as stated, fails: in the definition tree where `example` declares the
persistent flag `val` and its child `add` declares the own flags `five` and `val`,
the flag list of the node `add` is `val`, `five`, `val`: the name `val` is in it
twice. -/
theorem cmdTree_repeats_shadowed_flag :
    (resolve (cmdTree shadowCommand []) ["add"]).map (fun n => flagNames n.flags)
        = some ["val", "five", "val"] ∧
      noRepeat ["val", "five", "val"] = false :=
  ⟨rfl, by decide⟩

/-- C11, amended: every node of the tree built by `cmdTree`, reached by a chain
of child keys, is the snapshot of the definition node that the same chain of
names leads to in the definition tree, and its flag list is the persistent flags
of that definition node's parent (the list handed to `cmdTree`, for the root)
followed by the definition node's own flags; no flag name is twice in the list
exactly when neither of the two parts repeats a name and the two parts have no
name in common. -/
theorem cmdTree_flag_names_distinct_iff (c : Command) (inherited : List Flag)
    (chain : List String) (node : CmdNode)
    (h : resolve (cmdTree c inherited) chain = some node) :
    ∃ (v : Command) (i : List Flag),
      definitionNode c inherited chain = some (v, i) ∧
      (chain = [] → v = c ∧ i = inherited) ∧
      (∀ (pre : List String) (k : String), chain = pre ++ [k] →
        ∃ (parent : Command) (j : List Flag),
          definitionNode c inherited pre = some (parent, j) ∧
          v ∈ parent.Commands ∧ v.Use = k ∧ excluded v = false ∧
          i = parent.PersistentFlags) ∧
      node = cmdTree v i ∧
      node.flags = i ++ v.Flags ∧
      (noRepeat (flagNames node.flags) = true ↔
        noRepeat (flagNames i) = true ∧ noRepeat (flagNames v.Flags) = true ∧
          ∀ x ∈ flagNames i, x ∉ flagNames v.Flags) := by
  rw [resolve_cmdTree_definitionNode] at h
  cases hd : definitionNode c inherited chain with
  | none => rw [hd] at h; simp at h
  | some p =>
    obtain ⟨v, i⟩ := p
    rw [hd] at h
    simp only [Option.map_some', Option.some.injEq] at h
    refine ⟨v, i, rfl, ?_, ?_, h.symm, ?_, ?_⟩
    · intro hc
      subst hc
      simp only [definitionNode, Option.some.injEq, Prod.mk.injEq] at hd
      exact ⟨hd.1.symm, hd.2.symm⟩
    · intro pre k hc
      subst hc
      rw [definitionNode_append] at hd
      cases hp : definitionNode c inherited pre with
      | none => rw [hp] at hd; simp at hd
      | some q =>
        obtain ⟨parent, j⟩ := q
        rw [hp] at hd
        simp only [Option.some_bind] at hd
        cases hl : lastKept k parent.Commands with
        | none => rw [hl] at hd; simp at hd
        | some w =>
          rw [hl] at hd
          simp only [Option.map_some', Option.some.injEq, Prod.mk.injEq] at hd
          obtain ⟨h1, h2, h3⟩ := lastKept_some k _ w hl
          obtain ⟨rfl, rfl⟩ := hd
          exact ⟨parent, j, rfl, h1, h2, h3, rfl⟩
    · rw [← h, cmdTree_flags]
    · rw [← h, cmdTree_flags]
      simp only [flagNames, List.map_append]
      exact noRepeat_append _ _

theorem cmdTree_flag_names_distinct_iff_witness :
    ∃ (v : Command) (i : List Flag),
      definitionNode shadowCommand [] ["add"] = some (v, i) ∧
      (["add"] = [] → v = shadowCommand ∧ i = []) ∧
      (∀ (pre : List String) (k : String), ["add"] = pre ++ [k] →
        ∃ (parent : Command) (j : List Flag),
          definitionNode shadowCommand [] pre = some (parent, j) ∧
          v ∈ parent.Commands ∧ v.Use = k ∧ excluded v = false ∧
          i = parent.PersistentFlags) ∧
      CmdNode.mk "add" []
          [⟨"val", "Value used by other commands", "0"⟩, ⟨"five", "Add 5 to val", "false"⟩,
            ⟨"val", "Start value", "1"⟩] = cmdTree v i ∧
      (CmdNode.mk "add" []
          [⟨"val", "Value used by other commands", "0"⟩, ⟨"five", "Add 5 to val", "false"⟩,
            ⟨"val", "Start value", "1"⟩]).flags = i ++ v.Flags ∧
      (noRepeat (flagNames
          (CmdNode.mk "add" []
            [⟨"val", "Value used by other commands", "0"⟩, ⟨"five", "Add 5 to val", "false"⟩,
              ⟨"val", "Start value", "1"⟩]).flags) = true ↔
        noRepeat (flagNames i) = true ∧ noRepeat (flagNames v.Flags) = true ∧
          ∀ x ∈ flagNames i, x ∉ flagNames v.Flags) :=
  cmdTree_flag_names_distinct_iff shadowCommand [] ["add"]
    (.mk "add" []
      [⟨"val", "Value used by other commands", "0"⟩, ⟨"five", "Add 5 to val", "false"⟩,
        ⟨"val", "Start value", "1"⟩]) rfl

/-- C12, as stated, fails: the process of `runFail` writes `boom` to stderr and
fails with `exit status 1`; the response of `serveRun` has status 500 and the body
`Error: Failed to run command: exit status 1`, in which `boom` does not occur. -/
theorem serveRun_failure_omits_stderr :
    (runFail "/bin/example" ["add"]).stderr = "boom" ∧
      (serveRun runFail addServer Effects.init (requestOf "/example/add" [])).map
          (fun e => (e.spawned, e.w.status, e.w.body))
        = .ok ([("/bin/example", ["add"])], some 500,
            "Error: Failed to run command: exit status 1\n") ∧
      Contains "Error: Failed to run command: exit status 1\n" "boom" = false :=
  ⟨rfl, rfl, by decide⟩

/-- C12, amended: when the spawned process fails with the error text `m`,
`serveRun` answers with status 500 and the body
`Error: Failed to run command: ` followed by `m` and a newline; what the process
wrote to stdout and stderr is dropped by `runCommand`, so a process failing with
the same error text and any other output gives the same response. -/
theorem serveRun_failure_reports_error_only
    (Run Run' : String → List String → ProcessResult) (s : Server) (e : Effects)
    (r : Request) (node : CmdNode) (m : String)
    (hpre : HasPrefix r.URL.Path ("/" ++ s.rootName) = true)
    (hres : resolve s.cmdTree ((Split r.URL.Path '/').drop 2) = some node)
    (hst : e.w.status = none)
    (hm : (Run s.execPath (mappedArgs r.URL node)).err = some m)
    (hm' : (Run' s.execPath (mappedArgs r.URL node)).err = some m) :
    ∃ e' : Effects, serveRun Run s e r = .ok e' ∧
      e'.w.status = some 500 ∧
      e'.w.body = e.w.body ++ ("Error: Failed to run command: " ++ m ++ "\n") ∧
      e'.spawned = e.spawned ++ [(s.execPath, mappedArgs r.URL node)] ∧
      serveRun Run' s e r = .ok e' := by
  have h1 := serveRun_of_resolve Run s e r node hpre hres
  have h2 := serveRun_of_resolve Run' s e r node hpre hres
  rw [hm] at h1
  rw [hm'] at h2
  obtain ⟨hs, hb⟩ := httpError_status_body e.w ("Error: Failed to run command: " ++ m) 500 hst
  exact ⟨_, h1, hs, hb, rfl, h2⟩

theorem serveRun_failure_reports_error_only_witness :
    ∃ e' : Effects,
      serveRun runFail addServer Effects.init (requestOf "/example/add" []) = .ok e' ∧
      e'.w.status = some 500 ∧
      e'.w.body = Effects.init.w.body
        ++ ("Error: Failed to run command: " ++ "exit status 1" ++ "\n") ∧
      e'.spawned = Effects.init.spawned
        ++ [(addServer.execPath, mappedArgs (requestOf "/example/add" []).URL
            (.mk "add" [] [⟨"five", "Add 5 to val", "false"⟩, ⟨"val", "", "0"⟩]))] ∧
      serveRun (fun _ _ => ⟨"", "", some "exit status 1"⟩) addServer Effects.init
        (requestOf "/example/add" []) = .ok e' :=
  serveRun_failure_reports_error_only runFail (fun _ _ => ⟨"", "", some "exit status 1"⟩)
    addServer Effects.init (requestOf "/example/add" [])
    (.mk "add" [] [⟨"five", "Add 5 to val", "false"⟩, ⟨"val", "", "0"⟩]) "exit status 1"
    (by decide) rfl rfl rfl rfl

/-- C13: when the request is mapped and the spawned process succeeds with the
captured outputs `stdout` and `stderr`, `serveRun` writes to the body `stdout`
alone if `stderr` is empty and `stdout` followed by `stderr` between parentheses
otherwise, with status 200 on a fresh writer; it logs nothing and leaves the
response headers as they were. -/
theorem serveRun_success_body (Run : String → List String → ProcessResult) (s : Server)
    (e : Effects) (r : Request) (node : CmdNode)
    (hpre : HasPrefix r.URL.Path ("/" ++ s.rootName) = true)
    (hres : resolve s.cmdTree ((Split r.URL.Path '/').drop 2) = some node)
    (hok : (Run s.execPath (mappedArgs r.URL node)).err = none) :
    ∃ e' : Effects, serveRun Run s e r = .ok e' ∧
      e'.w.body = e.w.body ++
        (if (Run s.execPath (mappedArgs r.URL node)).stderr = "" then
          (Run s.execPath (mappedArgs r.URL node)).stdout
        else
          (Run s.execPath (mappedArgs r.URL node)).stdout ++ "("
            ++ (Run s.execPath (mappedArgs r.URL node)).stderr ++ ")") ∧
      (e.w.status = none → e'.w.status = some 200) ∧
      e'.w.header = e.w.header ∧
      e'.log = e.log := by
  have h1 := serveRun_of_resolve Run s e r node hpre hres
  rw [hok] at h1
  refine ⟨_, h1, ?_, ?_, ?_, rfl⟩
  · by_cases hs : (Run s.execPath (mappedArgs r.URL node)).stderr = ""
    · simp [ResponseWriter.Write, ResponseWriter.WriteHeader, hs]
      split <;> rfl
    · simp only [ResponseWriter.Write, ResponseWriter.WriteHeader, hs, ne_eq, not_false_eq_true,
        if_true, if_false]
      split <;> simp [String.append_assoc]
  · intro hst
    simp [ResponseWriter.Write, ResponseWriter.WriteHeader, hst]
  · simp only [ResponseWriter.Write, ResponseWriter.WriteHeader]
    split <;> rfl

theorem serveRun_success_body_witness :
    ∃ e' : Effects,
      serveRun runWarn addServer Effects.init (requestOf "/example/add" [("val", ["10"])])
        = .ok e' ∧
      e'.w.body = Effects.init.w.body ++
        (if (runWarn addServer.execPath
              (mappedArgs (requestOf "/example/add" [("val", ["10"])]).URL
                (.mk "add" [] [⟨"five", "Add 5 to val", "false"⟩, ⟨"val", "", "0"⟩]))).stderr
            = "" then
          (runWarn addServer.execPath
            (mappedArgs (requestOf "/example/add" [("val", ["10"])]).URL
              (.mk "add" [] [⟨"five", "Add 5 to val", "false"⟩, ⟨"val", "", "0"⟩]))).stdout
        else
          (runWarn addServer.execPath
            (mappedArgs (requestOf "/example/add" [("val", ["10"])]).URL
              (.mk "add" [] [⟨"five", "Add 5 to val", "false"⟩, ⟨"val", "", "0"⟩]))).stdout
            ++ "("
            ++ (runWarn addServer.execPath
              (mappedArgs (requestOf "/example/add" [("val", ["10"])]).URL
                (.mk "add" [] [⟨"five", "Add 5 to val", "false"⟩, ⟨"val", "", "0"⟩]))).stderr
            ++ ")") ∧
      (Effects.init.w.status = none → e'.w.status = some 200) ∧
      e'.w.header = Effects.init.w.header ∧
      e'.log = Effects.init.log :=
  serveRun_success_body runWarn addServer Effects.init
    (requestOf "/example/add" [("val", ["10"])])
    (.mk "add" [] [⟨"five", "Add 5 to val", "false"⟩, ⟨"val", "", "0"⟩]) (by decide) rfl rfl

/-- C14: for a request whose path is neither `/swaggerui` nor `/swagger` and does
not begin with `/` followed by the root name, `ServeHTTP` returns having only
logged the request line: the response writer (body, status, headers) is as it
was, nothing is handed to `generateCommand` and no process is spawned. -/
theorem ServeHTTP_foreign_path_no_response (env : Env) (s : Server) (e : Effects)
    (r : Request)
    (h1 : r.URL.Path ≠ "/swaggerui") (h2 : r.URL.Path ≠ "/swagger")
    (h3 : HasPrefix r.URL.Path ("/" ++ s.rootName) = false) :
    ∃ e' : Effects, ServeHTTP env s e r = .ok e' ∧
      e'.w = e.w ∧ e'.mapped = e.mapped ∧ e'.spawned = e.spawned ∧
      e'.log = e.log ++ ["Request from " ++ r.RemoteAddr ++ ": " ++ r.RequestURI] :=
  ⟨_, ServeHTTP_of_other_path env s e r h1 h2 h3, rfl, rfl, rfl, rfl⟩

theorem ServeHTTP_foreign_path_no_response_witness :
    ∃ e' : Effects,
      ServeHTTP envOk addServer Effects.init (requestOf "/favicon.ico" []) = .ok e' ∧
      e'.w = Effects.init.w ∧ e'.mapped = Effects.init.mapped ∧
      e'.spawned = Effects.init.spawned ∧
      e'.log = Effects.init.log
        ++ ["Request from " ++ (requestOf "/favicon.ico" []).RemoteAddr ++ ": "
            ++ (requestOf "/favicon.ico" []).RequestURI] :=
  ServeHTTP_foreign_path_no_response envOk addServer Effects.init
    (requestOf "/favicon.ico" []) (by decide) (by decide) (by decide)

/-- C15: `getVersion` returns `1.0.0` for an empty version and the configured
version otherwise, so it returns `v` after `SetVersion v` with `v` not empty;
`getDescription` returns the configured description; the header `swaggerHeader`
filled by `Sprintf` with a description, a version and a title is the fixed text
with the three values in their places, and the document `serverSwaggerFile`
writes is that header filled with `getDescription`, `getVersion` and `rootName`,
followed by the marshalled paths. -/
theorem getVersion_default_and_swagger_header :
    (∀ s : Server, s.version = "" → s.getVersion = "1.0.0") ∧
    (∀ s : Server, s.version ≠ "" → s.getVersion = s.version) ∧
    (∀ (s : Server) (v : String), v ≠ "" → (s.SetVersion v).getVersion = v) ∧
    (∀ s : Server, s.getDescription = s.description) ∧
    (∀ description version title : String,
      Sprintf swaggerHeader [description, version, title]
        = "swagger: \"2.0\"\ninfo:\n  description: \"" ++ (description
          ++ ("\"\n  version: \"" ++ (version
          ++ ("\"\n  title: \"" ++ (title ++ "\"\n")))))) ∧
    (∀ (env : Env) (s : Server) (e : Effects) (d : String),
      env.Marshal (swaggerPaths s) = .ok d →
      (serverSwaggerFile env s e).w.body = e.w.body
        ++ (Sprintf swaggerHeader [s.getDescription, s.getVersion, s.rootName] ++ d)) := by
  refine ⟨?_, ?_, ?_, ?_, ?_, ?_⟩
  · intro s h
    simp [Server.getVersion, h]
  · intro s h
    simp [Server.getVersion, h]
  · intro s v h
    simp [Server.getVersion, Server.SetVersion, h]
  · intro s
    unfold Server.getDescription
    split
    · rename_i h; exact h.symm
    · rfl
  · intro description version title
    rfl
  · intro env s e d h
    unfold swaggerPaths at h
    unfold serverSwaggerFile
    simp only [h, ResponseWriter.Write, ResponseWriter.WriteHeader]
    split <;> rfl

theorem getVersion_default_and_swagger_header_witness :
    (serverSwaggerFile envOk (addServer.SetVersion "2.1") Effects.init).w.body
      = Effects.init.w.body
        ++ (Sprintf swaggerHeader
            [(addServer.SetVersion "2.1").getDescription,
              (addServer.SetVersion "2.1").getVersion, (addServer.SetVersion "2.1").rootName]
          ++ "paths: ...\n") :=
  getVersion_default_and_swagger_header.2.2.2.2.2 envOk (addServer.SetVersion "2.1")
    Effects.init "paths: ...\n" rfl

/-- C16: with the methods written on the server state, every call returns, and
after `ServeHTTP` on any request the state is the server it was before: the
command tree and the fields `rootName`, `execPath`, `description` and `version`
are unchanged, and the effects are those of the handler; `SetDescription` changes
the description only and `SetVersion` the version only. -/
theorem Call_run_preserves_server (env : Env) (s : Server) (e : Effects) (c : Call) :
    ∃ (e' : Effects) (s' : Server), (c.run env e).run s = .ok (e', s') ∧
      s'.cmdTree = s.cmdTree ∧ s'.rootName = s.rootName ∧ s'.execPath = s.execPath ∧
      (match c with
        | .serve r =>
          s'.description = s.description ∧ s'.version = s.version ∧ s' = s ∧
            ServeHTTP env s e r = .ok e'
        | .setDescription v => s'.description = v ∧ s'.version = s.version ∧ e' = e
        | .setVersion v => s'.description = s.description ∧ s'.version = v ∧ e' = e) := by
  cases c with
  | serve r =>
    obtain ⟨e', he⟩ := ServeHTTP_returns env s e r
    refine ⟨e', s, ?_, rfl, rfl, rfl, rfl, rfl, rfl, he⟩
    show (ServeHTTPM env e r).run s = _
    rw [ServeHTTPM_run, he]
    rfl
  | setDescription v =>
    exact ⟨e, s.SetDescription v, rfl, rfl, rfl, rfl, rfl, rfl, rfl⟩
  | setVersion v =>
    exact ⟨e, s.SetVersion v, rfl, rfl, rfl, rfl, rfl, rfl, rfl⟩

/-- C17: for a server whose tree is built by `cmdTree`, whose root name is the
name of the root command and whose names contain no `/`: the keys of `paths` are
the paths of the nodes' name chains; for every node, `generateCommand` on the
node's key with an empty query succeeds with the names of the chain after the
root as its argument list, and the walk ends at that node; conversely a path
whose segments are the empty leading segment, the root name and segments on which
`generateCommand` succeeds is a key of `paths`. -/
theorem swaggerPaths_agree_with_generateCommand (c : Command) (inherited : List Flag)
    (s : Server) (hs : s.cmdTree = cmdTree c inherited) (hr : s.rootName = c.Use)
    (hf : slashFree s.cmdTree = true) :
    mapKeys (swaggerPaths s) = (chainNodes s.cmdTree).map (fun p => pathKey p.1) ∧
    (∀ p ∈ chainNodes s.cmdTree,
      p.1.head? = some s.rootName ∧
      resolve s.cmdTree p.1.tail = some p.2 ∧
      generateCommand s ⟨pathKey p.1, []⟩ = .ok ⟨s.execPath, some p.1.tail, none⟩) ∧
    (∀ (url : URL) (segs : List String) (res : CommandResult),
      Split url.Path '/' = "" :: s.rootName :: segs →
      generateCommand s url = .ok res → res.err = none →
      url.Path ∈ mapKeys (swaggerPaths s)) := by
  have hd : distinctNames s.cmdTree = true := hs ▸ distinctNames_cmdTree c inherited
  have hk : keysAreNames s.cmdTree = true := hs ▸ keysAreNames_cmdTree c inherited
  have hname : s.cmdTree.name = s.rootName := by rw [hs, cmdTree_name, hr]
  have hkeys := (mapKeys_swaggerPaths s hd hf).1
  refine ⟨?_, ?_, ?_⟩
  · rw [hkeys, ← chainNodes_fst, List.map_map]
    rfl
  · intro p hp
    obtain ⟨tl, e, hres⟩ := resolve_of_mem_chainNodes s.cmdTree hk hd p.1 p.2 hp
    have hmem : p.1 ∈ nameChains s.cmdTree := by
      rw [← chainNodes_fst]
      exact List.mem_map_of_mem Prod.fst hp
    have hsplit : Split (URL.mk (pathKey p.1) []).Path '/' = "" :: s.cmdTree.name :: tl := by
      rw [← e]
      exact Split_pathKey s.cmdTree hf p.1 hmem
    have hg := generateCommand_of_resolve s ⟨pathKey p.1, []⟩ p.2
      (by rw [hsplit]; simp) (by rw [hsplit]; exact hres)
    rw [hsplit] at hg
    refine ⟨by rw [e, hname]; rfl, by rw [e]; exact hres, ?_⟩
    rw [hg, e]
    simp [flagArgs_nil, argvArgs_nil]
  · intro url segs res hsplit hg herr
    have hlen : 2 ≤ (Split url.Path '/').length := by rw [hsplit]; simp
    cases hres : resolve s.cmdTree ((Split url.Path '/').drop 2) with
    | none =>
      rw [generateCommand_of_unresolved s url hlen hres] at hg
      cases hg
      simp at herr
    | some node =>
      rw [hsplit] at hres
      have hmem := mem_nameChains_of_resolve segs s.cmdTree node hk hres
      rw [hname] at hmem
      have hj := Join_Split url.Path '/'
      rw [hsplit, Join_cons_cons] at hj
      have hp : pathKey (s.rootName :: segs) = url.Path := by
        rw [← hj, pathKey]
        apply String.ext
        simp [String.data_append]
      rw [hkeys, ← hp]
      exact List.mem_map_of_mem pathKey hmem

theorem swaggerPaths_agree_with_generateCommand_witness :
    mapKeys (swaggerPaths (NewServer deepCommand "/bin/example" "" ""))
        = (chainNodes (NewServer deepCommand "/bin/example" "" "").cmdTree).map
            (fun p => pathKey p.1) ∧
      "/example/math" ∈ mapKeys (swaggerPaths (NewServer deepCommand "/bin/example" "" "")) :=
  ⟨(swaggerPaths_agree_with_generateCommand deepCommand []
      (NewServer deepCommand "/bin/example" "" "") rfl rfl (by decide)).1,
   (swaggerPaths_agree_with_generateCommand deepCommand []
      (NewServer deepCommand "/bin/example" "" "") rfl rfl (by decide)).2.2
      ⟨"/example/math", []⟩ ["math"] ⟨"/bin/example", some ["math"], none⟩
      (by decide) rfl rfl⟩

/-- C18, as stated, fails in its last part: for the server built from the root
command named `tool/add` with the child `add`, the path `/` followed by the root
name is `/tool/add`; its segments after the first two are `add`, not none, and
the walk of `generateCommand` ends at the child `add`, not at the root. -/
theorem generateCommand_root_path_with_slash :
    (NewServer slashRootCommand "/bin/tool" "" "").rootName = "tool/add" ∧
      (Split ("/" ++ (NewServer slashRootCommand "/bin/tool" "" "").rootName) '/').drop 2
        = ["add"] ∧
      (resolve (NewServer slashRootCommand "/bin/tool" "" "").cmdTree
          ((Split ("/" ++ (NewServer slashRootCommand "/bin/tool" "" "").rootName) '/').drop
            2)).map CmdNode.name = some "add" ∧
      generateCommand (NewServer slashRootCommand "/bin/tool" "" "")
          ⟨"/" ++ (NewServer slashRootCommand "/bin/tool" "" "").rootName, []⟩
        = .ok ⟨"/bin/tool", some ["add"], none⟩ :=
  ⟨rfl, by decide, by decide, rfl⟩

/-- C18, amended: for every path that begins with `/` followed by the root name,
the split of the path at `/` has at least two elements, so the slice from index 2
is in bounds and `generateCommand` returns; when the root name contains no `/`,
the path made of `/` and the root name leaves no segment after the first two, the
walk ends at the root, and the arguments are those of the root's flags and of
`argv`. -/
theorem generateCommand_slice_in_bounds :
    (∀ (s : Server) (url : URL), HasPrefix url.Path ("/" ++ s.rootName) = true →
      2 ≤ (Split url.Path '/').length ∧
        ∃ res : CommandResult, generateCommand s url = .ok res) ∧
    (∀ (s : Server) (q : Values), '/' ∉ s.rootName.data →
      (Split ("/" ++ s.rootName) '/').drop 2 = [] ∧
        walkSegments ((Split ("/" ++ s.rootName) '/').drop 2) s.cmdTree []
          = some (s.cmdTree, []) ∧
        generateCommand s ⟨"/" ++ s.rootName, q⟩
          = .ok ⟨s.execPath, some (flagArgs q s.cmdTree.flags ++ argvArgs q), none⟩) := by
  constructor
  · intro s url hpre
    have hlen := Split_length_of_HasPrefix _ _ hpre
    refine ⟨hlen, ?_⟩
    cases hres : resolve s.cmdTree ((Split url.Path '/').drop 2) with
    | none => exact ⟨_, generateCommand_of_unresolved s url hlen hres⟩
    | some node => exact ⟨_, generateCommand_of_resolve s url node hlen hres⟩
  · intro s q hno
    have hsplit : Split ("/" ++ s.rootName) '/' = ["", s.rootName] := by
      unfold Split
      have hd : ("/" ++ s.rootName).data = [] ++ '/' :: s.rootName.data := by
        simp [String.data_append]
      rw [hd, splitChars_append_sep, splitChars_of_not_mem _ _ hno]
      rfl
    have hdrop : (Split ("/" ++ s.rootName) '/').drop 2 = [] := by rw [hsplit]; rfl
    refine ⟨hdrop, by rw [hdrop]; rfl, ?_⟩
    have hg := generateCommand_of_resolve s ⟨"/" ++ s.rootName, q⟩ s.cmdTree
      (by rw [hsplit]; simp) (by rw [hdrop]; rfl)
    rw [hg, hdrop]
    simp

theorem generateCommand_slice_in_bounds_witness :
    (Split ("/" ++ addServer.rootName) '/').drop 2 = [] ∧
      walkSegments ((Split ("/" ++ addServer.rootName) '/').drop 2) addServer.cmdTree []
        = some (addServer.cmdTree, []) ∧
      generateCommand addServer ⟨"/" ++ addServer.rootName, [("argv", ["1,2"])]⟩
        = .ok ⟨addServer.execPath,
            some (flagArgs [("argv", ["1,2"])] addServer.cmdTree.flags
              ++ argvArgs [("argv", ["1,2"])]), none⟩ :=
  generateCommand_slice_in_bounds.2 addServer [("argv", ["1,2"])] (by decide)

end Garter
